import Mathlib

/-!
# Verification of the `fenwick` crate

Shallow embedding of `src/lib.rs`: a 0-based Fenwick tree over a numeric
type `T`, instantiated at `T = Int`.  `Vec<T>` is modelled as `List Int`;
an out-of-bounds indexing panic is modelled by `Option` (`none`).  Loops
become recursive functions; `debug_assert!` has no effect on the value of
an operation and is therefore not part of the embedding (the asserted
preconditions appear as hypotheses of the theorems instead).
-/

/-- Lowest set bit: models the Rust macro `lsb!(i) = i & i.wrapping_neg()`,
which yields `2 ^ (trailing zeros of i)` for `i ≠ 0` and `0` for `i = 0`. -/
def lsb (i : Nat) : Nat :=
  if i = 0 then 0
  else if i % 2 = 1 then 1
  else 2 * lsb (i / 2)
termination_by i
decreasing_by exact Nat.div_lt_self (Nat.pos_of_ne_zero (by assumption)) (by norm_num)

theorem lsb_pos {i : Nat} (h : i ≠ 0) : 0 < lsb i := by
  induction i using Nat.strong_induction_on with
  | _ i ih =>
    rw [lsb]
    split
    · omega
    · split
      · omega
      · have hi : i ≠ 0 := by assumption
        have h2 : i / 2 ≠ 0 := by omega
        have := ih (i / 2) (Nat.div_lt_self (Nat.pos_of_ne_zero hi) (by norm_num)) h2
        omega

theorem lsb_le {i : Nat} : lsb i ≤ i := by
  induction i using Nat.strong_induction_on with
  | _ i ih =>
    rw [lsb]
    split
    · omega
    · split
      · omega
      · have hi : i ≠ 0 := by assumption
        have := ih (i / 2) (Nat.div_lt_self (Nat.pos_of_ne_zero hi) (by norm_num))
        omega

theorem sub_lsb_lt {i : Nat} (h : i ≠ 0) : i - lsb i < i :=
  Nat.sub_lt (Nat.pos_of_ne_zero h) (lsb_pos h)

theorem lsb_zero : lsb 0 = 0 := by rw [lsb]; simp

theorem lsb_of_odd {i : Nat} (h : i % 2 = 1) : lsb i = 1 := by
  rw [lsb]; simp [h]; omega

theorem lsb_two_mul {i : Nat} (h : i ≠ 0) : lsb (2 * i) = 2 * lsb i := by
  rw [lsb]
  have h1 : 2 * i ≠ 0 := by omega
  have h2 : ¬ (2 * i) % 2 = 1 := by omega
  simp [h1, h2, Nat.mul_div_cancel_left i (by norm_num : 0 < 2)]

theorem lsb_odd_mul_pow (m t : Nat) : lsb ((2 * m + 1) * 2 ^ t) = 2 ^ t := by
  induction t with
  | zero => simpa using lsb_of_odd (i := 2 * m + 1) (by omega)
  | succ t ih =>
    have h : (2 * m + 1) * 2 ^ (t + 1) = 2 * ((2 * m + 1) * 2 ^ t) := by ring
    rw [h, lsb_two_mul (by positivity), ih, pow_succ]
    ring

theorem exists_odd_decomp {i : Nat} (h : i ≠ 0) :
    ∃ m t, i = (2 * m + 1) * 2 ^ t := by
  induction i using Nat.strong_induction_on with
  | _ i ih =>
    rcases Nat.even_or_odd i with he | ho
    · obtain ⟨c, hc⟩ := he
      have hc' : i = 2 * c := by omega
      have hcne : c ≠ 0 := by omega
      obtain ⟨m, t, hmt⟩ := ih c (by omega) hcne
      exact ⟨m, t + 1, by rw [hc', hmt]; ring⟩
    · obtain ⟨c, hc⟩ := ho
      exact ⟨c, 0, by omega⟩

/-- The Rust model resize: `Vec::resize(n, 0)`. -/
def vecResize (l : List Int) (n : Nat) : List Int :=
  if l.length ≤ n then l ++ List.replicate (n - l.length) 0 else l.take n

/-- The internal size `2^(ceil (log2 size)) + 1` computed by the constructors,
modelling `2_usize.pow(((size as f64).log(2.0).ceil()) as u32) + 1_usize`.
The float ceil-log with its saturating cast to `u32` is `Nat.clog 2`
(both give `0` at `size = 0` and `size = 1`). -/
def adjSize (n : Nat) : Nat := 2 ^ Nat.clog 2 n + 1

structure Fenwick where
  data : List Int
  size : Nat
deriving Repr, DecidableEq

/-- `Fenwick::new` -/
def Fenwick.new (size : Nat) : Fenwick :=
  ⟨List.replicate (adjSize size) 0, adjSize size⟩

/-- `Fenwick::end` (`end` is a Lean keyword, hence `endIdx`). -/
def Fenwick.endIdx (fw : Fenwick) : Nat := fw.size - 1

/-- The `for i in 1..size` loop shared by `from_slice` and `from_vec`:
propagate `data[i]` into `data[i + lsb i]` when that target is in range. -/
def buildLoop (data : List Int) (i size : Nat) : Option (List Int) :=
  if i < size then
    let j := i + lsb i
    if j < size then
      match data.get? i, data.get? j with
      | some d, some dj => buildLoop (data.set j (dj + d)) (i + 1) size
      | _, _ => none
    else buildLoop data (i + 1) size
  else some data
termination_by size - i

/-- `Fenwick::from_slice` -/
def Fenwick.from_slice (slice : List Int) : Option Fenwick :=
  let size := adjSize slice.length
  let data := vecResize slice size
  (buildLoop data 1 size).map fun d => ⟨d, size⟩

/-- `Fenwick::from_vec` (identical algorithm; in Rust it consumes the vector
instead of copying from a borrowed slice, which a `List` embedding cannot
distinguish). -/
def Fenwick.from_vec (vec : List Int) : Option Fenwick :=
  let size := adjSize vec.length
  let data := vecResize vec size
  (buildLoop data 1 size).map fun d => ⟨d, size⟩

/-- The `while i != 0` descent of `prefix_sum`. -/
def psLoop (data : List Int) (sum : Int) (i : Nat) : Option Int :=
  if _h : i = 0 then some sum
  else
    match data.get? i with
    | none => none
    | some d => psLoop data (sum + d) (i - lsb i)
termination_by i
decreasing_by exact sub_lsb_lt _h

/-- `Fenwick::prefix_sum` -/
def Fenwick.prefix_sum (fw : Fenwick) (idx : Nat) : Option Int :=
  match fw.data.get? 0 with
  | none => none
  | some s0 => psLoop fw.data s0 idx

/-- `Fenwick::total` -/
def Fenwick.total (fw : Fenwick) : Option Int :=
  match fw.data.get? fw.endIdx, fw.data.get? 0 with
  | some a, some b => some (a + b)
  | _, _ => none

/-- The `while i < size` ascent of `add`.  When `i = 0` the Rust loop would
not terminate (`lsb 0 = 0`); that state is unreachable (`add` routes
`idx == 0` to the direct branch) and is mapped to `none`. -/
def addLoop (data : List Int) (size i : Nat) (delta : Int) : Option (List Int) :=
  if i < size then
    if _h : i = 0 then none
    else
      match data.get? i with
      | none => none
      | some d => addLoop (data.set i (d + delta)) size (i + lsb i) delta
  else some data
termination_by size - i
decreasing_by have := lsb_pos _h; omega

/-- `Fenwick::add` -/
def Fenwick.add (fw : Fenwick) (idx : Nat) (delta : Int) : Option Fenwick :=
  if idx = 0 then
    match fw.data.get? 0 with
    | none => none
    | some d => some ⟨fw.data.set 0 (d + delta), fw.size⟩
  else
    (addLoop fw.data fw.size idx delta).map fun d => ⟨d, fw.size⟩

/-- The `while i < size` ascent of `sub` (see `addLoop` about `i = 0`). -/
def subLoop (data : List Int) (size i : Nat) (delta : Int) : Option (List Int) :=
  if i < size then
    if _h : i = 0 then none
    else
      match data.get? i with
      | none => none
      | some d => subLoop (data.set i (d - delta)) size (i + lsb i) delta
  else some data
termination_by size - i
decreasing_by have := lsb_pos _h; omega

/-- `Fenwick::sub` -/
def Fenwick.sub (fw : Fenwick) (idx : Nat) (delta : Int) : Option Fenwick :=
  if idx = 0 then
    match fw.data.get? 0 with
    | none => none
    | some d => some ⟨fw.data.set 0 (d - delta), fw.size⟩
  else
    (subLoop fw.data fw.size idx delta).map fun d => ⟨d, fw.size⟩

/-- First loop of `range_sum`: `while j > i { sum += data[j]; j -= lsb j }`. -/
def rsDownAdd (data : List Int) (sum : Int) (i j : Nat) : Option (Int × Nat) :=
  if _h : j > i then
    match data.get? j with
    | none => none
    | some d => rsDownAdd data (sum + d) i (j - lsb j)
  else some (sum, j)
termination_by j
decreasing_by exact sub_lsb_lt (by omega)

/-- Second loop of `range_sum`: `while i > j { sum -= data[i]; i -= lsb i }`. -/
def rsDownSub (data : List Int) (sum : Int) (j i : Nat) : Option Int :=
  if _h : i > j then
    match data.get? i with
    | none => none
    | some d => rsDownSub data (sum - d) j (i - lsb i)
  else some sum
termination_by i
decreasing_by exact sub_lsb_lt (by omega)

/-- `Fenwick::range_sum` -/
def Fenwick.range_sum (fw : Fenwick) (idx_i idx_j : Nat) : Option Int :=
  match (if idx_i > 0 then some ((0 : Int), idx_i - 1, idx_j)
         else match fw.data.get? 0 with
              | none => none
              | some d => some (d, 0, idx_j)) with
  | none => none
  | some (sum, i, j) =>
    match rsDownAdd fw.data sum i j with
    | none => none
    | some (sum1, j1) => rsDownSub fw.data sum1 j1 i

/-- `Fenwick::range_sum2` -/
def Fenwick.range_sum2 (fw : Fenwick) (idx_i idx_j : Nat) : Option Int :=
  if idx_i = idx_j then some 0 else fw.range_sum idx_i (idx_j - 1)

/-- `Fenwick::get` -/
def Fenwick.get (fw : Fenwick) (idx : Nat) : Option Int :=
  if idx = 0 then fw.data.get? 0 else fw.range_sum idx idx

/-- `Fenwick::set` -/
def Fenwick.set (fw : Fenwick) (idx : Nat) (value : Int) : Option Fenwick :=
  match fw.get idx with
  | none => none
  | some cur =>
    if cur ≤ value then fw.add idx (value - cur) else fw.sub idx (cur - value)

/-- The `while j > 0` binary-lifting descent of `rank_query`. -/
def rqLoop (data : List Int) (size i : Nat) (v : Int) (j : Nat) : Option Nat :=
  if 0 < j then
    if i + j < size then
      match data.get? (i + j) with
      | none => none
      | some d =>
        if d ≤ v then rqLoop data size (i + j) (v - d) (j / 2)
        else rqLoop data size i v (j / 2)
    else rqLoop data size i v (j / 2)
  else some i
termination_by j
decreasing_by all_goals omega

/-- `Fenwick::rank_query` -/
def Fenwick.rank_query (fw : Fenwick) (value : Int) : Option Nat :=
  match fw.data.get? 0 with
  | none => none
  | some d0 => rqLoop fw.data fw.size 0 (value - d0) (fw.size - 1)

theorem lsb_half_add {i : Nat} (h0 : i ≠ 0) (he : i % 2 = 0) :
    lsb (i + lsb (i / 2)) = lsb i / 2 ∧ lsb (i - lsb (i / 2)) = lsb i / 2 ∧
      lsb i = 2 * lsb (i / 2) ∧ lsb (i / 2) ≤ i / 2 ∧ i / 2 ≠ 0 := by
  obtain ⟨m, t, hmt⟩ := exists_odd_decomp h0
  have ht : t ≠ 0 := by
    rcases Nat.eq_zero_or_pos t with h | h
    · subst h; simp at hmt; omega
    · omega
  obtain ⟨s, hs⟩ : ∃ s, t = s + 1 := ⟨t - 1, by omega⟩
  subst hs hmt
  have hhalf : (2 * m + 1) * 2 ^ (s + 1) / 2 = (2 * m + 1) * 2 ^ s := by
    have h2 : (2 * m + 1) * 2 ^ (s + 1) = ((2 * m + 1) * 2 ^ s) * 2 := by ring
    rw [h2, Nat.mul_div_cancel _ (by norm_num)]
  rw [hhalf, lsb_odd_mul_pow, lsb_odd_mul_pow]
  have h1 : (2 * m + 1) * 2 ^ (s + 1) + 2 ^ s = (2 * (2 * m + 1) + 1) * 2 ^ s := by
    rw [pow_succ]; ring
  have h2 : (2 * m + 1) * 2 ^ (s + 1) - 2 ^ s = (2 * (2 * m) + 1) * 2 ^ s := by
    rw [pow_succ]
    have : (2 * m + 1) * (2 ^ s * 2) = (2 * (2 * m) + 1) * 2 ^ s + 2 ^ s := by ring
    omega
  rw [h1, h2, lsb_odd_mul_pow, lsb_odd_mul_pow]
  refine ⟨by omega, by omega, by rw [pow_succ]; ring_nf, ?_, ?_⟩
  · exact Nat.le_mul_of_pos_left _ (by omega)
  · positivity

/-- The `while i & 1 == 0` descent of `min_rank_query`.  When `i = 0` the
Rust loop would not terminate; that state is unreachable (the descent starts
at `end() = 2^k` and stays in `[1, 2^k]`) and is mapped to `none`. -/
def mrqLoop (data : List Int) (i : Nat) (v d : Int) : Option (Nat × Int × Int) :=
  if i % 2 = 0 then
    if _h : i = 0 then none
    else
      if d < v then
        match data.get? (i + lsb (i / 2)) with
        | none => none
        | some d' => mrqLoop data (i + lsb (i / 2)) (v - d) d'
      else
        match data.get? (i - lsb (i / 2)) with
        | none => none
        | some d' => mrqLoop data (i - lsb (i / 2)) v d'
  else some (i, v, d)
termination_by lsb i
decreasing_by
  all_goals
    obtain ⟨h1, h2, h3, _, h5⟩ := lsb_half_add _h (by assumption)
    have := lsb_pos h5
    omega

/-- `Fenwick::min_rank_query` -/
def Fenwick.min_rank_query (fw : Fenwick) (value : Int) : Option Nat :=
  match fw.data.get? 0 with
  | none => none
  | some d0 =>
    if value ≤ d0 then some 0
    else
      match fw.data.get? fw.endIdx with
      | none => none
      | some d =>
        match mrqLoop fw.data fw.endIdx (min (value - d0) d) d with
        | none => none
        | some (i, v, d) => some (if v > d then i + 1 else i)

/-- Borrowing iterator `FenwickIter` (the `&Fenwick` reference becomes a
plain field; `next`'s `&mut self` becomes state passing). -/
structure FenwickIter where
  fw : Fenwick
  idx : Nat

/-- Consuming iterator `FenwickIntoIter`. -/
structure FenwickIntoIter where
  fw : Fenwick
  idx : Nat

/-- `FenwickIter::next`: the outer `Option` models a panic inside `get`,
the inner one is the iterator protocol. -/
def FenwickIter.next (it : FenwickIter) : Option (Option Int × FenwickIter) :=
  if it.idx < it.fw.endIdx then
    match it.fw.get (it.idx + 1 - 1) with
    | none => none
    | some x => some (some x, ⟨it.fw, it.idx + 1⟩)
  else some (none, it)

/-- `FenwickIntoIter::next` -/
def FenwickIntoIter.next (it : FenwickIntoIter) : Option (Option Int × FenwickIntoIter) :=
  if it.idx < it.fw.endIdx then
    match it.fw.get (it.idx + 1 - 1) with
    | none => none
    | some x => some (some x, ⟨it.fw, it.idx + 1⟩)
  else some (none, it)

/-- `Fenwick::iter` (also `IntoIterator for &Fenwick`). -/
def Fenwick.iter (fw : Fenwick) : FenwickIter := ⟨fw, 0⟩

/-- `IntoIterator for Fenwick`. -/
def Fenwick.into_iter (fw : Fenwick) : FenwickIntoIter := ⟨fw, 0⟩

/-- Drain up to `fuel` items from a borrowing iterator (observer used to
state iterator claims; not part of the source). -/
def iterCollect (it : FenwickIter) : Nat → Option (List Int)
  | 0 => some []
  | fuel + 1 =>
    match it.next with
    | none => none
    | some (none, _) => some []
    | some (some x, it') =>
      match iterCollect it' fuel with
      | none => none
      | some rest => some (x :: rest)

/-- Drain up to `fuel` items from a consuming iterator. -/
def intoIterCollect (it : FenwickIntoIter) : Nat → Option (List Int)
  | 0 => some []
  | fuel + 1 =>
    match it.next with
    | none => none
    | some (none, _) => some []
    | some (some x, it') =>
      match intoIterCollect it' fuel with
      | none => none
      | some rest => some (x :: rest)

/-! ## The abstraction: logical contents and the slot invariant -/

/-- Sum of the logical values `xs.getD q 0` over `a ≤ q < b`. -/
def spad (xs : List Int) (a b : Nat) : Int := ∑ q in Finset.Ico a b, xs.getD q 0

/-- Inclusive prefix sum of the model: elements `0 ..= idx`. -/
def pfx (xs : List Int) (idx : Nat) : Int := spad xs 0 (idx + 1)

/-- The slot invariant that actually holds in `src/lib.rs`: `data[0]` stores
logical element `0` directly, and slot `p ≥ 1` stores the sum of logical
elements `p - lsb p + 1 ..= p`. -/
def SlotInv (data xs : List Int) : Prop :=
  data.length = xs.length ∧
  data.getD 0 0 = xs.getD 0 0 ∧
  ∀ p, 0 < p → p < data.length → data.getD p 0 = spad xs (p + 1 - lsb p) (p + 1)

/-- Structural well-formedness established by every constructor. -/
def Fenwick.WF (fw : Fenwick) : Prop :=
  ∃ k, fw.size = 2 ^ k + 1 ∧ fw.data.length = fw.size

/-- Modelled from the spec (claim C5): the claimed slot content, the sum of
logical elements `p - lowestSetBit p` through `p - 1`. -/
def specSlotClaim (xs : List Int) (p : Nat) : Int := spad xs (p - lsb p) p

/-! ## List and segment-sum toolkit -/

theorem get?_of_lt {l : List Int} {q : Nat} (h : q < l.length) :
    l.get? q = some (l.getD q 0) := by
  rw [List.get?_eq_get h, List.getD_eq_getElem l 0 h]
  simp

theorem get?_inv {l : List Int} {q : Nat} {d : Int} (h : l.get? q = some d) :
    q < l.length ∧ l.getD q 0 = d := by
  have hq : q < l.length := by
    by_contra hc
    rw [List.get?_eq_none.mpr (by omega)] at h
    exact Option.noConfusion h
  refine ⟨hq, ?_⟩
  rw [get?_of_lt hq] at h
  exact Option.some.inj h

theorem getD_set {xs : List Int} {idx q : Nat} {w : Int} :
    (xs.set idx w).getD q 0 =
      if q = idx ∧ q < xs.length then w else xs.getD q 0 := by
  by_cases hq : q < xs.length
  · rw [List.getD_eq_getElem _ 0 (by simpa using hq)]
    rw [List.getElem_set]
    by_cases he : idx = q
    · subst he; simp [hq]
    · simp only [he, if_false]
      rw [List.getD_eq_getElem _ 0 hq]
      simp [Ne.symm he]
  · rw [List.getD_eq_default _ 0 (by simpa using Nat.le_of_not_lt hq),
        List.getD_eq_default _ 0 (Nat.le_of_not_lt hq)]
    simp [hq]

theorem spad_empty {xs : List Int} {a b : Nat} (h : b ≤ a) : spad xs a b = 0 := by
  unfold spad
  rw [Finset.Ico_eq_empty (by omega)]
  simp

theorem spad_consec {x : List Int} {a b c : Nat} (h1 : a ≤ b) (h2 : b ≤ c) :
    spad x a b + spad x b c = spad x a c :=
  Finset.sum_Ico_consecutive _ h1 h2

theorem spad_single (xs : List Int) (a : Nat) : spad xs a (a + 1) = xs.getD a 0 := by
  unfold spad
  rw [Nat.Ico_succ_singleton, Finset.sum_singleton]

theorem spad_nonneg {xs : List Int} {a b : Nat}
    (h : ∀ q, q < xs.length → 0 ≤ xs.getD q 0) : 0 ≤ spad xs a b := by
  refine Finset.sum_nonneg fun q _ => ?_
  by_cases hq : q < xs.length
  · exact h q hq
  · rw [List.getD_eq_default _ 0 (Nat.le_of_not_lt hq)]

theorem spad_mono {xs : List Int} {a b b' : Nat}
    (h : ∀ q, q < xs.length → 0 ≤ xs.getD q 0) (hb : b ≤ b') :
    spad xs a b ≤ spad xs a b' := by
  by_cases hab : a ≤ b
  · have := spad_consec (x := xs) hab hb
    have := spad_nonneg (a := b) (b := b') h
    omega
  · rw [spad_empty (by omega)]
    exact spad_nonneg h

theorem spad_past_len {xs : List Int} {a b : Nat} (h : xs.length ≤ a) :
    spad xs a b = 0 := by
  refine Finset.sum_eq_zero fun q hq => ?_
  rw [Finset.mem_Ico] at hq
  exact List.getD_eq_default _ 0 (by omega)

theorem spad_clip {xs : List Int} {a b b' : Nat} (hb : xs.length ≤ b) (hb' : b ≤ b') :
    spad xs a b = spad xs a b' := by
  by_cases hab : a ≤ b
  · have h1 := spad_consec (x := xs) hab hb'
    rw [spad_past_len hb] at h1
    omega
  · rw [spad_empty (by omega), spad_past_len (by omega)]

theorem spad_set {xs : List Int} {idx : Nat} {w : Int} {a b : Nat} :
    spad (xs.set idx w) a b =
      spad xs a b +
        (if a ≤ idx ∧ idx < b ∧ idx < xs.length then w - xs.getD idx 0 else 0) := by
  unfold spad
  by_cases hmem : a ≤ idx ∧ idx < b ∧ idx < xs.length
  · have hin : idx ∈ Finset.Ico a b := Finset.mem_Ico.mpr ⟨hmem.1, hmem.2.1⟩
    rw [← Finset.sum_erase_add _ _ hin, ← Finset.sum_erase_add _ _ hin]
    have heq : ∀ q ∈ (Finset.Ico a b).erase idx,
        (xs.set idx w).getD q 0 = xs.getD q 0 := by
      intro q hq
      have hne : q ≠ idx := (Finset.mem_erase.mp hq).1
      rw [getD_set]
      simp [hne]
    rw [Finset.sum_congr rfl heq, getD_set]
    rw [if_pos ⟨rfl, hmem.2.2⟩, if_pos hmem]
    ring
  · have heq : ∀ q ∈ Finset.Ico a b,
        (xs.set idx w).getD q 0 = xs.getD q 0 := by
      intro q hq
      rw [Finset.mem_Ico] at hq
      rw [getD_set]
      by_cases hqi : q = idx
      · subst hqi
        have : ¬ q < xs.length := by tauto
        simp [this]
      · simp [hqi]
    rw [Finset.sum_congr rfl heq]
    simp [hmem]

theorem spad_replicate_zero {n a b : Nat} : spad (List.replicate n (0 : Int)) a b = 0 := by
  refine Finset.sum_eq_zero fun q _ => ?_
  by_cases hq : q < n
  · rw [List.getD_eq_getElem _ 0 (by simpa using hq)]
    simp
  · rw [List.getD_eq_default]
    simpa using Nat.le_of_not_lt hq

/-! ## prefix_sum -/

theorem psLoop_spec {data xs : List Int} (hinv : SlotInv data xs) :
    ∀ i, i < data.length → ∀ sum : Int,
      psLoop data sum i = some (sum + spad xs 1 (i + 1)) := by
  intro i
  induction i using Nat.strong_induction_on with
  | _ i ih =>
    intro hi sum
    rw [psLoop]
    by_cases h0 : i = 0
    case pos =>
      subst h0
      rw [dif_pos rfl, spad_empty (by omega)]
      simp
    case neg =>
      rw [dif_neg h0]
      split
      next heq =>
        rw [get?_of_lt hi] at heq
        exact absurd heq (by simp)
      next d heq =>
        obtain ⟨_, hd⟩ := get?_inv heq
        have hpos := lsb_pos h0
        have hle : lsb i ≤ i := lsb_le
        rw [ih (i - lsb i) (sub_lsb_lt h0) (by omega) (sum + d)]
        have hslot := hinv.2.2 i (Nat.pos_of_ne_zero h0) hi
        have hcons := spad_consec (x := xs) (a := 1) (b := i - lsb i + 1)
          (c := i + 1) (by omega) (by omega)
        have heq2 : i + 1 - lsb i = i - lsb i + 1 := by omega
        rw [heq2] at hslot
        rw [hd] at hslot
        congr 1
        omega

theorem psLoop_isSome {data : List Int} :
    ∀ i, i < data.length → ∀ sum : Int, (psLoop data sum i).isSome := by
  intro i
  induction i using Nat.strong_induction_on with
  | _ i ih =>
    intro hi sum
    rw [psLoop]
    by_cases h0 : i = 0
    case pos => rw [dif_pos h0]; simp
    case neg =>
      rw [dif_neg h0]
      split
      next heq =>
        rw [get?_of_lt hi] at heq
        exact absurd heq (by simp)
      next d heq =>
        have hpos := lsb_pos h0
        exact ih (i - lsb i) (sub_lsb_lt h0) (by omega) (sum + d)

/-- Main characterisation of `prefix_sum`: it computes the inclusive prefix
sum of the logical elements. -/
theorem prefix_sum_spec {fw : Fenwick} {xs : List Int} (hinv : SlotInv fw.data xs)
    {idx : Nat} (hidx : idx < fw.data.length) :
    fw.prefix_sum idx = some (pfx xs idx) := by
  have h0 : 0 < fw.data.length := by omega
  unfold Fenwick.prefix_sum
  split
  next heq =>
    rw [get?_of_lt h0] at heq
    exact absurd heq (by simp)
  next s0 heq =>
    obtain ⟨_, hs0⟩ := get?_inv heq
    rw [psLoop_spec hinv idx hidx]
    rw [← hs0, hinv.2.1]
    unfold pfx
    have h1 := spad_single xs 0
    have hcons := spad_consec (x := xs) (a := 0) (b := 1) (c := idx + 1)
      (by omega) (by omega)
    have key : xs.getD 0 0 + spad xs 1 (idx + 1) = spad xs 0 (idx + 1) := by
      rw [← hcons, h1]
    rw [key]

theorem prefix_sum_isSome {fw : Fenwick} {idx : Nat} (hidx : idx < fw.data.length) :
    (fw.prefix_sum idx).isSome := by
  have h0 : 0 < fw.data.length := by omega
  unfold Fenwick.prefix_sum
  split
  next heq =>
    rw [get?_of_lt h0] at heq
    exact absurd heq (by simp)
  next s0 heq => exact psLoop_isSome idx hidx _

/-! ## Dyadic structure of lsb -/

theorem lsb_eq_pow {n : Nat} (h : n ≠ 0) :
    ∃ m t, n = (2 * m + 1) * 2 ^ t ∧ lsb n = 2 ^ t := by
  obtain ⟨m, t, hmt⟩ := exists_odd_decomp h
  exact ⟨m, t, hmt, by rw [hmt, lsb_odd_mul_pow]⟩

theorem pow_le_of_odd_mul {m t u : Nat} (h : (2 * m + 1) * 2 ^ t < 2 ^ u) :
    t < u := by
  have h1 : 2 ^ t ≤ (2 * m + 1) * 2 ^ t := Nat.le_mul_of_pos_left _ (by omega)
  have h2 : 2 ^ t < 2 ^ u := by omega
  exact (Nat.pow_lt_pow_iff_right (by norm_num)).mp h2

theorem add_lsb_le_pow {r u : Nat} (hr : r ≠ 0) (hru : r < 2 ^ u) :
    r + lsb r ≤ 2 ^ u := by
  obtain ⟨m, t, hr', hl⟩ := lsb_eq_pow hr
  have htu : t < u := pow_le_of_odd_mul (hr' ▸ hru)
  have hsplit : 2 ^ u = 2 ^ (u - t) * 2 ^ t := by
    rw [← pow_add]
    congr 1
    omega
  have h1 : 2 * m + 1 < 2 ^ (u - t) := by
    by_contra hc
    push_neg at hc
    have := Nat.mul_le_mul_right (2 ^ t) hc
    rw [← hsplit] at this
    omega
  obtain ⟨c, hc⟩ : 2 ∣ 2 ^ (u - t) := dvd_pow_self 2 (by omega)
  have h2 : 2 * m + 2 ≤ 2 ^ (u - t) := by omega
  have h3 : r + lsb r = (2 * m + 2) * 2 ^ t := by
    rw [hl, hr']
    ring
  rw [h3, hsplit]
  exact Nat.mul_le_mul_right _ h2

theorem lsb_add_multiple {M r c : Nat} (hM : 2 ^ c ∣ M) (hr : r ≠ 0)
    (hrc : r < 2 ^ c) : lsb (M + r) = lsb r := by
  obtain ⟨m, t, hr', hl⟩ := lsb_eq_pow hr
  have htc : t < c := pow_le_of_odd_mul (hr' ▸ hrc)
  obtain ⟨K, hK⟩ := hM
  have hsplit : 2 ^ c = 2 ^ (c - t - 1) * 2 * 2 ^ t := by
    obtain ⟨e, he⟩ : ∃ e, c = e + 1 + t := ⟨c - t - 1, by omega⟩
    subst he
    have h2 : e + 1 + t - t - 1 = e := by omega
    rw [h2, pow_add, pow_add, pow_one]
  have hMr : M + r = (2 * (K * 2 ^ (c - t - 1) + m) + 1) * 2 ^ t := by
    rw [hK, hr', hsplit]
    ring
  rw [hMr, lsb_odd_mul_pow, hl]

theorem lsb_dvd (n : Nat) : lsb n ∣ n := by
  by_cases h : n = 0
  · subst h; simp
  · obtain ⟨m, t, hn, hl⟩ := lsb_eq_pow h
    rw [hl, hn]
    exact dvd_mul_left (2 ^ t) (2 * m + 1)

theorem pow_le_lsb_of_dvd {n c : Nat} (hn : n ≠ 0) (hd : 2 ^ c ∣ n) :
    2 ^ c ≤ lsb n := by
  obtain ⟨m, t, hn', hl⟩ := lsb_eq_pow hn
  by_cases htc : c ≤ t
  · rw [hl]
    exact Nat.pow_le_pow_right (by norm_num) htc
  · exfalso
    obtain ⟨K, hK⟩ := hd
    have hsplit : 2 ^ c = 2 ^ (c - t - 1) * 2 * 2 ^ t := by
      obtain ⟨e, he⟩ : ∃ e, c = e + 1 + t := ⟨c - t - 1, by omega⟩
      subst he
      have h2 : e + 1 + t - t - 1 = e := by omega
      rw [h2, pow_add, pow_add, pow_one]
    rw [hn', hsplit] at hK
    have hre : 2 ^ (c - t - 1) * 2 * 2 ^ t * K = 2 ^ (c - t - 1) * 2 * K * 2 ^ t := by
      ring
    rw [hre] at hK
    have h2 : 2 * m + 1 = 2 ^ (c - t - 1) * 2 * K :=
      Nat.eq_of_mul_eq_mul_right (by positivity) hK
    have h3 : (2 : Nat) ∣ 2 ^ (c - t - 1) * 2 * K := ⟨2 ^ (c - t - 1) * K, by ring⟩
    omega

theorem two_mul_lsb_dvd_add {i : Nat} (h : i ≠ 0) : 2 * lsb i ∣ (i + lsb i) := by
  obtain ⟨m, t, hn, hl⟩ := lsb_eq_pow h
  refine ⟨m + 1, ?_⟩
  rw [hl, hn]
  ring

theorem two_mul_lsb_dvd_sub {i : Nat} (h : i ≠ 0) : 2 * lsb i ∣ (i - lsb i) := by
  obtain ⟨m, t, hn, hl⟩ := lsb_eq_pow h
  refine ⟨m, ?_⟩
  rw [hl, hn]
  have h1 : (2 * m + 1) * 2 ^ t = 2 * 2 ^ t * m + 2 ^ t := by ring
  omega

/-- `i` lies in the half-open segment `(p - lsb p, p]` aggregated by slot `p`. -/
def Covers (p i : Nat) : Prop := p - lsb p < i ∧ i ≤ p

theorem covers_self {i : Nat} (h : 0 < i) : Covers i i :=
  ⟨by have := lsb_pos (by omega : i ≠ 0); omega, le_refl i⟩

/-- Key chain step: for `p` above `i`, slot `p` covers `i` iff it covers the
next position `i + lsb i` of the update chain. -/
theorem covers_step {i p : Nat} (h0 : 0 < i) (hip : i < p) :
    Covers p i ↔ Covers p (i + lsb i) := by
  have hpne : p ≠ 0 := by omega
  have hine : i ≠ 0 := by omega
  obtain ⟨a, u, hp', hlp⟩ := lsb_eq_pow hpne
  obtain ⟨b, t, hi', hli⟩ := lsb_eq_pow hine
  have hup : 0 < 2 ^ u := by positivity
  have htp : 0 < 2 ^ t := by positivity
  have hMp : p - lsb p = a * 2 ^ (u + 1) := by
    rw [hlp, hp', pow_succ]
    have h1 : (2 * a + 1) * 2 ^ u = a * (2 ^ u * 2) + 2 ^ u := by ring
    omega
  have hi1 : i + lsb i = (b + 1) * 2 ^ (t + 1) := by
    rw [hli, hi', pow_succ]
    ring
  have hlsbp_le : lsb p ≤ p := lsb_le
  have hlsbp_pos : 0 < lsb p := lsb_pos hpne
  have hlsbi_pos : 0 < lsb i := lsb_pos hine
  constructor
  · rintro ⟨hlo, _hhi⟩
    have hrlt : i - (p - lsb p) < 2 ^ u := by
      rw [← hlp]
      omega
    have hMdvd : 2 ^ (u + 1) ∣ (p - lsb p) := ⟨a, by rw [hMp]; ring⟩
    have hlsbr : lsb i = lsb (i - (p - lsb p)) := by
      have hsum : i = (p - lsb p) + (i - (p - lsb p)) := by omega
      conv_lhs => rw [hsum]
      rw [lsb_add_multiple hMdvd (by omega) (by rw [pow_succ]; omega)]
    have hradd : (i - (p - lsb p)) + lsb (i - (p - lsb p)) ≤ 2 ^ u :=
      add_lsb_le_pow (by omega) hrlt
    have hpe : p - lsb p + 2 ^ u = p := by
      rw [← hlp]
      omega
    have e1 : i - (p - lsb p) + lsb i ≤ 2 ^ u := by
      rw [hlsbr]
      exact hradd
    exact ⟨by omega, by omega⟩
  · rintro ⟨hlo, hhi⟩
    refine ⟨?_, by omega⟩
    by_cases hut : u ≤ t
    · -- small slot: this would force p = i + lsb i, contradicting lsb sizes
      exfalso
      have hdvd_p : 2 ^ u ∣ p := hlp ▸ lsb_dvd p
      have hdvd_i1 : 2 ^ u ∣ (i + lsb i) := by
        have hd1 : 2 ^ (t + 1) ∣ (i + lsb i) := ⟨b + 1, by rw [hi1]; ring⟩
        exact dvd_trans (pow_dvd_pow 2 (show u ≤ t + 1 by omega)) hd1
      have hlt : p - (i + lsb i) < 2 ^ u := by
        rw [← hlp]
        omega
      have hdvd_diff : 2 ^ u ∣ (p - (i + lsb i)) := Nat.dvd_sub' hdvd_p hdvd_i1
      have hdiff0 : p - (i + lsb i) = 0 := Nat.eq_zero_of_dvd_of_lt hdvd_diff hlt
      have hpeq : p = i + lsb i := by omega
      have hdvd2 : 2 ^ (t + 1) ∣ (i + lsb i) := ⟨b + 1, by rw [hi1]; ring⟩
      have hge := pow_le_lsb_of_dvd (n := p) hpne (hpeq ▸ hdvd2)
      rw [hlp] at hge
      have := (Nat.pow_le_pow_iff_right (a := 2) (by norm_num)).mp hge
      omega
    · -- big slot: p - lsb p and i + lsb i are distinct multiples of 2 ^ (t + 1)
      push_neg at hut
      have h1 : 2 ^ (t + 1) ∣ (p - lsb p) := by
        rw [hMp]
        exact Dvd.dvd.mul_left (pow_dvd_pow 2 (by omega)) a
      have h2 : 2 ^ (t + 1) ∣ (i + lsb i) := ⟨b + 1, by rw [hi1]; ring⟩
      obtain ⟨x, hx⟩ := h1
      obtain ⟨y, hy⟩ := h2
      have hxy : x < y := by
        by_contra hc
        push_neg at hc
        have hle : (i + lsb i) ≤ (p - lsb p) := by
          rw [hx, hy]
          exact Nat.mul_le_mul_left _ hc
        omega
      have hstep : p - lsb p + 2 ^ (t + 1) ≤ i + lsb i := by
        have hy1 : x + 1 ≤ y := hxy
        have := Nat.mul_le_mul_left (2 ^ (t + 1)) hy1
        rw [Nat.mul_add, Nat.mul_one] at this
        omega
      rw [pow_succ] at hstep
      rw [hli] at hstep
      omega

/-! ## add and sub -/

instance (p i : Nat) : Decidable (Covers p i) := by
  unfold Covers
  infer_instance

theorem addLoop_spec {size : Nat} : ∀ {data : List Int}, data.length = size →
    ∀ {i : Nat}, 0 < i → ∀ δ : Int,
    ∃ data', addLoop data size i δ = some data' ∧ data'.length = size ∧
      ∀ p, p < size →
        data'.getD p 0 = data.getD p 0 + (if Covers p i then δ else 0) := by
  intro data hlen i h0 δ
  rw [addLoop]
  by_cases h1 : i < size
  case neg =>
    rw [if_neg h1]
    refine ⟨data, rfl, hlen, fun p hp => ?_⟩
    have hnc : ¬ Covers p i := fun h => by obtain ⟨_, hle⟩ := h; omega
    rw [if_neg hnc]
    ring
  case pos =>
    rw [if_pos h1, dif_neg (by omega : ¬ i = 0)]
    split
    next heq =>
      rw [get?_of_lt (show i < data.length by omega)] at heq
      exact absurd heq (by simp)
    next d heq =>
      have hpos := lsb_pos (show i ≠ 0 by omega)
      obtain ⟨data', hloop, hlen', hchar⟩ :=
        addLoop_spec (show (data.set i (d + δ)).length = size by simpa using hlen)
          (show 0 < i + lsb i by omega) δ
      refine ⟨data', hloop, hlen', fun p hp => ?_⟩
      rw [hchar p hp, getD_set]
      by_cases hpi : p = i
      · subst hpi
        rw [if_pos ⟨rfl, by omega⟩]
        obtain ⟨hdlt, hd⟩ := get?_inv heq
        rw [← hd]
        rw [if_pos (covers_self h0)]
        have hc2 : ¬ Covers p (p + lsb p) := fun h => by obtain ⟨_, hle⟩ := h; omega
        rw [if_neg hc2]
        ring
      · rw [if_neg (by tauto)]
        by_cases hlt : p < i
        · have hc1 : ¬ Covers p i := fun h => by obtain ⟨_, hle⟩ := h; omega
          have hc2 : ¬ Covers p (i + lsb i) := fun h => by
            obtain ⟨_, hle⟩ := h
            omega
          rw [if_neg hc1, if_neg hc2]
        · have hgt : i < p := by omega
          by_cases hcov : Covers p (i + lsb i)
          · rw [if_pos hcov, if_pos ((covers_step h0 hgt).mpr hcov)]
          · rw [if_neg hcov, if_neg (fun hc => hcov ((covers_step h0 hgt).mp hc))]
termination_by data _ i _ _ => size - i
decreasing_by have := lsb_pos (show i ≠ 0 by omega); omega

theorem add_spec {fw : Fenwick} {xs : List Int} (hinv : SlotInv fw.data xs)
    (hlen : fw.data.length = fw.size) {idx : Nat} (hidx : idx < fw.size) (δ : Int) :
    ∃ fw', fw.add idx δ = some fw' ∧ fw'.size = fw.size ∧
      fw'.data.length = fw.size ∧
      SlotInv fw'.data (xs.set idx (xs.getD idx 0 + δ)) := by
  have hxlen : xs.length = fw.size := by rw [← hinv.1, hlen]
  have hlsble : lsb idx ≤ idx := lsb_le
  unfold Fenwick.add
  by_cases h0 : idx = 0
  · subst h0
    rw [if_pos rfl]
    split
    next heq =>
      rw [get?_of_lt (show 0 < fw.data.length by omega)] at heq
      exact absurd heq (by simp)
    next d heq =>
      obtain ⟨hidxlt, hd⟩ := get?_inv heq
      refine ⟨⟨fw.data.set 0 (d + δ), fw.size⟩, rfl, rfl, by simpa using hlen, ?_, ?_, ?_⟩
      · simpa using hinv.1
      · show (fw.data.set 0 (d + δ)).getD 0 0 = (xs.set 0 _).getD 0 0
        rw [getD_set, getD_set]
        rw [if_pos ⟨rfl, by omega⟩, if_pos ⟨rfl, by omega⟩]
        rw [← hd, hinv.2.1]
      · intro p hp hplen
        simp only [List.length_set] at hplen
        show (fw.data.set 0 (d + δ)).getD p 0 = _
        rw [getD_set, if_neg (fun h => by obtain ⟨h1, _⟩ := h; omega)]
        rw [hinv.2.2 p hp hplen, spad_set]
        have hple : lsb p ≤ p := lsb_le
        rw [if_neg (fun h => by obtain ⟨h1, _⟩ := h; omega)]
        ring
  · rw [if_neg h0]
    obtain ⟨data', hloop, hlen', hchar⟩ := addLoop_spec hlen (show 0 < idx by omega) δ
    rw [hloop]
    refine ⟨⟨data', fw.size⟩, rfl, rfl, hlen', ?_, ?_, ?_⟩
    · show data'.length = (xs.set idx _).length
      simp [hlen', hxlen]
    · show data'.getD 0 0 = (xs.set idx _).getD 0 0
      rw [hchar 0 (by omega), getD_set]
      rw [if_neg (fun h => by obtain ⟨_, hle⟩ := h; omega)]
      rw [if_neg (fun h => by obtain ⟨h1, _⟩ := h; exact h0 h1.symm)]
      rw [hinv.2.1]
      ring
    · intro p hp hplen
      rw [hlen'] at hplen
      show data'.getD p 0 = _
      rw [hchar p hplen, hinv.2.2 p hp (by omega), spad_set]
      have hple : lsb p ≤ p := lsb_le
      have hplsb : 0 < lsb p := lsb_pos (by omega)
      by_cases hcov : Covers p idx
      · obtain ⟨hc1, hc2⟩ := hcov
        rw [if_pos ⟨hc1, hc2⟩, if_pos ⟨by omega, by omega, by omega⟩]
        ring
      · rw [if_neg hcov]
        rw [if_neg (fun h => by
          obtain ⟨h1, h2, _⟩ := h
          exact hcov ⟨by omega, by omega⟩)]

theorem subLoop_eq_addLoop (data : List Int) (size i : Nat) (δ : Int) :
    subLoop data size i δ = addLoop data size i (-δ) := by
  rw [subLoop, addLoop]
  by_cases h1 : i < size
  · rw [if_pos h1, if_pos h1]
    by_cases h0 : i = 0
    · rw [dif_pos h0, dif_pos h0]
    · rw [dif_neg h0, dif_neg h0]
      cases heq : data.get? i with
      | none => rfl
      | some d => exact subLoop_eq_addLoop (data.set i (d - δ)) size (i + lsb i) δ
  · rw [if_neg h1, if_neg h1]
termination_by size - i
decreasing_by have := lsb_pos h0; omega

theorem sub_eq_add_neg_fenwick (fw : Fenwick) (idx : Nat) (δ : Int) :
    fw.sub idx δ = fw.add idx (-δ) := by
  unfold Fenwick.sub Fenwick.add
  by_cases h0 : idx = 0
  · rw [if_pos h0, if_pos h0]
    cases heq : fw.data.get? 0 with
    | none => rfl
    | some d => rfl
  · rw [if_neg h0, if_neg h0, subLoop_eq_addLoop]

theorem sub_spec {fw : Fenwick} {xs : List Int} (hinv : SlotInv fw.data xs)
    (hlen : fw.data.length = fw.size) {idx : Nat} (hidx : idx < fw.size) (δ : Int) :
    ∃ fw', fw.sub idx δ = some fw' ∧ fw'.size = fw.size ∧
      fw'.data.length = fw.size ∧
      SlotInv fw'.data (xs.set idx (xs.getD idx 0 - δ)) := by
  rw [sub_eq_add_neg_fenwick]
  obtain ⟨fw', h1, h2, h3, h4⟩ := add_spec hinv hlen hidx (-δ)
  refine ⟨fw', h1, h2, h3, ?_⟩
  rw [show xs.getD idx 0 - δ = xs.getD idx 0 + -δ from sub_eq_add_neg _ _]
  exact h4

/-! ## range_sum: the two-cursor convergent walk -/

/-- Where the descent `j, j - lsb j, ...` first lands at or below `lo`. -/
def stopDesc (lo j : Nat) : Nat :=
  if _h : j > lo then stopDesc lo (j - lsb j) else j
termination_by j
decreasing_by exact sub_lsb_lt (by omega)

theorem stopDesc_le_self {l : Nat} : ∀ j, stopDesc l j ≤ j := by
  intro j
  induction j using Nat.strong_induction_on with
  | _ j ih =>
    rw [stopDesc]
    by_cases h : j > l
    · rw [dif_pos h]
      exact le_trans (ih _ (sub_lsb_lt (by omega))) (by omega)
    · rw [dif_neg h]

theorem stopDesc_le_lo {l : Nat} : ∀ j, j ≤ l ∨ stopDesc l j ≤ l := by
  intro j
  induction j using Nat.strong_induction_on with
  | _ j ih =>
    by_cases h : j > l
    · rw [stopDesc, dif_pos h]
      rcases ih (j - lsb j) (sub_lsb_lt (by omega)) with h1 | h1
      · right
        rw [stopDesc, dif_neg (by omega)]
        exact h1
      · right
        exact h1
    · left
      omega

theorem stopDesc_of_le {l j : Nat} (h : j ≤ l) : stopDesc l j = j := by
  rw [stopDesc, dif_neg (by omega)]

/-- Descending from inside the aligned window `[M, M + 2^c)` lands exactly
on the window base `M`. -/
theorem stopDesc_window {c M : Nat} (hdvd : 2 ^ c ∣ M) :
    ∀ r, r < 2 ^ c → stopDesc M (M + r) = M := by
  intro r
  induction r using Nat.strong_induction_on with
  | _ r ih =>
    intro hr
    by_cases h0 : r = 0
    · subst h0
      rw [stopDesc_of_le (by omega)]
      omega
    · rw [stopDesc, dif_pos (by omega)]
      have hlsb : lsb (M + r) = lsb r := lsb_add_multiple hdvd h0 hr
      have hle : lsb r ≤ r := lsb_le
      have hpos : 0 < lsb r := lsb_pos h0
      have harg : M + r - lsb (M + r) = M + (r - lsb r) := by
        rw [hlsb]
        omega
      rw [harg]
      exact ih (r - lsb r) (by omega) (by omega)

/-- The meeting lemma: the second cursor's descent from `l` stops exactly at
the point where the first cursor's descent from `j` stopped. -/
theorem stopDesc_meet {l : Nat} :
    ∀ j, l ≤ j → stopDesc (stopDesc l j) l = stopDesc l j := by
  intro j
  induction j using Nat.strong_induction_on with
  | _ j ih =>
    intro hlo
    by_cases h : j > l
    · have hj0 : j ≠ 0 := by omega
      have hpos := lsb_pos hj0
      have hle : lsb j ≤ j := lsb_le
      have hunf : stopDesc l j = stopDesc l (j - lsb j) := by
        conv_lhs => rw [stopDesc]
        rw [dif_pos h]
      rw [hunf]
      by_cases h2 : l ≤ j - lsb j
      · exact ih (j - lsb j) (sub_lsb_lt hj0) h2
      · push_neg at h2
        have hinner : stopDesc l (j - lsb j) = j - lsb j :=
          stopDesc_of_le (l := l) (by omega)
        rw [hinner]
        obtain ⟨m, t, hjd, hjl⟩ := lsb_eq_pow hj0
        have hdvd : 2 ^ (t + 1) ∣ (j - lsb j) := by
          have hd := two_mul_lsb_dvd_sub hj0
          have he : 2 * lsb j = 2 ^ (t + 1) := by rw [hjl, pow_succ]; ring
          rw [he] at hd
          exact hd
        have hr : l - (j - lsb j) < 2 ^ (t + 1) := by
          have hx : l - (j - lsb j) < lsb j := by omega
          rw [hjl] at hx
          rw [pow_succ]
          omega
        have hwin := stopDesc_window hdvd (l - (j - lsb j)) hr
        have he2 : j - lsb j + (l - (j - lsb j)) = l := by omega
        rw [he2] at hwin
        exact hwin
    · have hje : j = l := by omega
      subst hje
      rw [stopDesc_of_le (le_refl j), stopDesc_of_le (le_refl j)]

theorem rsDownAdd_spec {data xs : List Int} (hinv : SlotInv data xs) {l : Nat} :
    ∀ j, j < data.length → ∀ sum : Int,
      rsDownAdd data sum l j =
        some (sum + spad xs (stopDesc l j + 1) (j + 1), stopDesc l j) := by
  intro j
  induction j using Nat.strong_induction_on with
  | _ j ih =>
    intro hj sum
    rw [rsDownAdd]
    by_cases h : j > l
    · rw [dif_pos h]
      split
      next heq =>
        rw [get?_of_lt hj] at heq
        exact absurd heq (by simp)
      next d heq =>
        obtain ⟨_, hd⟩ := get?_inv heq
        have hj0 : j ≠ 0 := by omega
        have hpos := lsb_pos hj0
        have hle : lsb j ≤ j := lsb_le
        rw [ih (j - lsb j) (sub_lsb_lt hj0) (by omega) (sum + d)]
        have hstop : stopDesc l j = stopDesc l (j - lsb j) := by
          conv_lhs => rw [stopDesc]
          rw [dif_pos h]
        have hslot := hinv.2.2 j (by omega) hj
        have hsle : stopDesc l (j - lsb j) ≤ j - lsb j := stopDesc_le_self _
        have hcons := spad_consec (x := xs) (a := stopDesc l (j - lsb j) + 1)
          (b := j - lsb j + 1) (c := j + 1) (by omega) (by omega)
        have he : j + 1 - lsb j = j - lsb j + 1 := by omega
        rw [he] at hslot
        rw [hd] at hslot
        rw [hstop]
        congr 2
        omega
    · rw [dif_neg h, stopDesc_of_le (by omega), spad_empty (by omega)]
      congr 2
      omega

theorem rsDownSub_spec {data xs : List Int} (hinv : SlotInv data xs) {l : Nat} :
    ∀ i, i < data.length → ∀ sum : Int,
      rsDownSub data sum l i =
        some (sum - spad xs (stopDesc l i + 1) (i + 1)) := by
  intro i
  induction i using Nat.strong_induction_on with
  | _ i ih =>
    intro hi sum
    rw [rsDownSub]
    by_cases h : i > l
    · rw [dif_pos h]
      split
      next heq =>
        rw [get?_of_lt hi] at heq
        exact absurd heq (by simp)
      next d heq =>
        obtain ⟨_, hd⟩ := get?_inv heq
        have hi0 : i ≠ 0 := by omega
        have hpos := lsb_pos hi0
        have hle : lsb i ≤ i := lsb_le
        rw [ih (i - lsb i) (sub_lsb_lt hi0) (by omega) (sum - d)]
        have hstop : stopDesc l i = stopDesc l (i - lsb i) := by
          conv_lhs => rw [stopDesc]
          rw [dif_pos h]
        have hslot := hinv.2.2 i (by omega) hi
        have hsle : stopDesc l (i - lsb i) ≤ i - lsb i := stopDesc_le_self _
        have hcons := spad_consec (x := xs) (a := stopDesc l (i - lsb i) + 1)
          (b := i - lsb i + 1) (c := i + 1) (by omega) (by omega)
        have he : i + 1 - lsb i = i - lsb i + 1 := by omega
        rw [he] at hslot
        rw [hd] at hslot
        rw [hstop]
        congr 1
        omega
    · rw [dif_neg h, stopDesc_of_le (by omega), spad_empty (by omega)]
      congr 1
      omega

/-- Main characterisation of `range_sum`: it computes the inclusive segment
sum of the logical elements `idx_i ..= idx_j`. -/
theorem range_sum_spec {fw : Fenwick} {xs : List Int} (hinv : SlotInv fw.data xs)
    {a b : Nat} (hab : a ≤ b) (hb : b < fw.data.length) :
    fw.range_sum a b = some (spad xs a (b + 1)) := by
  unfold Fenwick.range_sum
  split
  next heq =>
    exfalso
    by_cases ha : a > 0
    · rw [if_pos ha] at heq
      exact Option.noConfusion heq
    · rw [if_neg ha, get?_of_lt (show 0 < fw.data.length by omega)] at heq
      exact Option.noConfusion heq
  next sum i j heq =>
    by_cases ha : a > 0
    · rw [if_pos ha] at heq
      simp only [Option.some.injEq, Prod.mk.injEq] at heq
      obtain ⟨rfl, rfl, rfl⟩ := heq
      rw [rsDownAdd_spec hinv b hb 0]
      have hmeet := stopDesc_meet (l := a - 1) b (by omega)
      have hstople : stopDesc (a - 1) b ≤ a - 1 := by
        rcases stopDesc_le_lo (l := a - 1) b with h | h
        · omega
        · exact h
      show rsDownSub fw.data _ _ (a - 1) = _
      rw [rsDownSub_spec hinv (a - 1) (by omega) _]
      rw [hmeet]
      have hcons := spad_consec (x := xs) (a := stopDesc (a - 1) b + 1)
        (b := a) (c := b + 1) (by omega) (by omega)
      have he : a - 1 + 1 = a := by omega
      rw [he]
      congr 1
      omega
    · rw [if_neg ha, get?_of_lt (show 0 < fw.data.length by omega)] at heq
      simp only [Option.some.injEq, Prod.mk.injEq] at heq
      obtain ⟨rfl, rfl, rfl⟩ := heq
      have ha0 : a = 0 := by omega
      subst ha0
      rw [rsDownAdd_spec hinv b hb _]
      have hstop : stopDesc 0 b = 0 := by
        rcases stopDesc_le_lo (l := 0) b with h | h
        · rw [stopDesc_of_le h]
          omega
        · omega
      rw [hstop]
      show rsDownSub fw.data _ _ 0 = _
      rw [rsDownSub_spec hinv 0 (by omega) _]
      rw [stopDesc_of_le (le_refl 0)]
      have hempty : spad xs (0 + 1) (0 + 1) = 0 := spad_empty (by omega)
      rw [hempty, hinv.2.1]
      have h1 : spad xs 0 1 = xs.getD 0 0 := spad_single xs 0
      have hcons := spad_consec (x := xs) (a := 0) (b := 1) (c := b + 1)
        (by omega) (by omega)
      simp only [zero_add]
      congr 1
      omega

/-- `get` returns the logical element. -/
theorem get_spec {fw : Fenwick} {xs : List Int} (hinv : SlotInv fw.data xs)
    {idx : Nat} (hidx : idx < fw.data.length) :
    fw.get idx = some (xs.getD idx 0) := by
  unfold Fenwick.get
  by_cases h0 : idx = 0
  · subst h0
    rw [if_pos rfl, get?_of_lt hidx, hinv.2.1]
  · rw [if_neg h0, range_sum_spec hinv (le_refl idx) hidx, spad_single]

/-! ## set -/

theorem set_spec {fw : Fenwick} {xs : List Int} (hinv : SlotInv fw.data xs)
    (hlen : fw.data.length = fw.size) {idx : Nat} (hidx : idx < fw.size)
    (value : Int) :
    ∃ fw', fw.set idx value = some fw' ∧ fw'.size = fw.size ∧
      fw'.data.length = fw.size ∧ SlotInv fw'.data (xs.set idx value) := by
  unfold Fenwick.set
  rw [get_spec hinv (by omega)]
  show ∃ fw', (if xs.getD idx 0 ≤ value then fw.add idx (value - xs.getD idx 0)
      else fw.sub idx (xs.getD idx 0 - value)) = some fw' ∧ fw'.size = fw.size ∧
      fw'.data.length = fw.size ∧ SlotInv fw'.data (xs.set idx value)
  by_cases hc : xs.getD idx 0 ≤ value
  · rw [if_pos hc]
    obtain ⟨fw', h1, h2, h3, h4⟩ := add_spec hinv hlen hidx (value - xs.getD idx 0)
    refine ⟨fw', h1, h2, h3, ?_⟩
    have he : xs.getD idx 0 + (value - xs.getD idx 0) = value := by ring
    rw [he] at h4
    exact h4
  · rw [if_neg hc]
    obtain ⟨fw', h1, h2, h3, h4⟩ := sub_spec hinv hlen hidx (xs.getD idx 0 - value)
    refine ⟨fw', h1, h2, h3, ?_⟩
    have he : xs.getD idx 0 - (xs.getD idx 0 - value) = value := by ring
    rw [he] at h4
    exact h4

/-! ## Construction -/

theorem getD_replicate {n q : Nat} : (List.replicate n (0 : Int)).getD q 0 = 0 := by
  by_cases h : q < n
  · rw [List.getD_eq_getElem _ _ (by simpa using h)]
    simp
  · rw [List.getD_eq_default _ _ (by simpa using Nat.le_of_not_lt h)]

theorem new_inv (n : Nat) :
    SlotInv (Fenwick.new n).data (List.replicate (adjSize n) 0) := by
  unfold Fenwick.new SlotInv
  refine ⟨rfl, rfl, fun p hp hplen => ?_⟩
  show (List.replicate (adjSize n) (0 : Int)).getD p 0 = _
  rw [getD_replicate, spad_replicate_zero]

theorem adjSize_gt (n : Nat) : n < adjSize n := by
  unfold adjSize
  have := Nat.le_pow_clog (by norm_num : 1 < 2) n
  omega

theorem adjSize_ge_two (n : Nat) : 2 ≤ adjSize n := by
  unfold adjSize
  have : 0 < 2 ^ Nat.clog 2 n := by positivity
  omega

theorem vecResize_length {v : List Int} {n : Nat} (h : v.length ≤ n) :
    (vecResize v n).length = n := by
  unfold vecResize
  rw [if_pos h]
  simp
  omega

theorem vecResize_getD {v : List Int} {n q : Nat} (h : v.length ≤ n) :
    (vecResize v n).getD q 0 = v.getD q 0 := by
  unfold vecResize
  rw [if_pos h]
  by_cases hq : q < v.length
  · rw [List.getD_append _ _ _ _ hq]
  · rw [List.getD_append_right _ _ _ _ (by omega)]
    rw [getD_replicate]
    rw [List.getD_eq_default _ _ (by omega)]

theorem buildLoop_spec {size : Nat} : ∀ {data : List Int}, data.length = size →
    ∀ {i : Nat}, 0 < i →
    ∃ data', buildLoop data i size = some data' ∧ data'.length = size ∧
      (∀ p, p ≤ i → data'.getD p 0 = data.getD p 0) ∧
      (∀ p, i ≤ p → p < size →
        data'.getD p 0 = data.getD p 0 +
          ∑ c in (Finset.Ico i p).filter (fun c => c + lsb c = p),
            data'.getD c 0) := by
  intro data hlen i h0
  rw [buildLoop]
  by_cases h1 : i < size
  case neg =>
    rw [if_neg h1]
    refine ⟨data, rfl, hlen, fun p _ => rfl, fun p hip hp => ?_⟩
    omega
  case pos =>
    rw [if_pos h1]
    have hpos := lsb_pos (show i ≠ 0 by omega)
    by_cases h2 : i + lsb i < size
    case pos =>
      rw [if_pos h2]
      rw [get?_of_lt (show i < data.length by omega),
        get?_of_lt (show i + lsb i < data.length by omega)]
      obtain ⟨data', hbl, hlen', hstab, hmain⟩ :=
        buildLoop_spec (show (data.set (i + lsb i) (data.getD (i + lsb i) 0 + data.getD i 0)).length = size by simpa using hlen)
        (show 0 < i + 1 by omega)
      refine ⟨data', hbl, hlen', ?_, ?_⟩
      · intro p hpi
        rw [hstab p (by omega), getD_set, if_neg (fun h => by obtain ⟨h3, _⟩ := h; omega)]
      · intro p hip hp
        by_cases hpi : p = i
        · subst hpi
          rw [hstab p (by omega), getD_set,
            if_neg (fun h => by obtain ⟨h3, _⟩ := h; omega)]
          rw [Finset.Ico_self, Finset.filter_empty, Finset.sum_empty]
          ring
        · have hip1 : i + 1 ≤ p := by omega
          rw [hmain p hip1 hp]
          have hsplit : Finset.Ico i p = insert i (Finset.Ico (i + 1) p) := by
            ext q
            simp only [Finset.mem_Ico, Finset.mem_insert]
            omega
          rw [hsplit, Finset.filter_insert]
          by_cases hchild : i + lsb i = p
          · rw [if_pos hchild]
            rw [Finset.sum_insert (by
              intro hmem
              have := Finset.mem_of_mem_filter i hmem
              rw [Finset.mem_Ico] at this
              omega)]
            rw [getD_set, if_pos ⟨hchild.symm, by omega⟩]
            have hdi : data'.getD i 0 = data.getD i 0 := by
              rw [hstab i (by omega), getD_set,
                if_neg (fun h => by obtain ⟨h3, _⟩ := h; omega)]
            rw [hdi, hchild]
            ring
          · rw [if_neg hchild]
            rw [getD_set, if_neg (fun h => by obtain ⟨h3, _⟩ := h; exact hchild h3.symm)]
    case neg =>
      rw [if_neg h2]
      obtain ⟨data', hbl, hlen', hstab, hmain⟩ :=
        buildLoop_spec hlen (show 0 < i + 1 by omega)
      refine ⟨data', hbl, hlen', fun p hpi => hstab p (by omega), ?_⟩
      intro p hip hp
      by_cases hpi : p = i
      · subst hpi
        rw [hstab p (by omega), Finset.Ico_self, Finset.filter_empty, Finset.sum_empty]
        ring
      · have hip1 : i + 1 ≤ p := by omega
        rw [hmain p hip1 hp]
        have hsplit : Finset.Ico i p = insert i (Finset.Ico (i + 1) p) := by
          ext q
          simp only [Finset.mem_Ico, Finset.mem_insert]
          omega
        rw [hsplit, Finset.filter_insert]
        rw [if_neg (fun h : i + lsb i = p => by omega)]
termination_by data _ i => size - i
decreasing_by all_goals omega

theorem telescope_sum (xs : List Int) {p : Nat} :
    ∀ v : Nat, 2 ^ v ≤ p →
      ∑ t in Finset.range v, spad xs (p + 1 - 2 ^ (t + 1)) (p + 1 - 2 ^ t)
        = spad xs (p + 1 - 2 ^ v) p := by
  intro v
  induction v with
  | zero =>
    intro _
    rw [Finset.range_zero, Finset.sum_empty, pow_zero]
    rw [spad_empty (by omega)]
  | succ v ih =>
    intro hv
    have hvp : 2 ^ v ≤ p := by
      have : 2 ^ v ≤ 2 ^ (v + 1) := Nat.pow_le_pow_right (by norm_num) (by omega)
      omega
    rw [Finset.sum_range_succ, ih hvp]
    have h1 : 0 < 2 ^ v := by positivity
    have h2 : 2 ^ (v + 1) = 2 ^ v * 2 := by rw [pow_succ]
    have hcons := spad_consec (x := xs) (a := p + 1 - 2 ^ (v + 1))
      (b := p + 1 - 2 ^ v) (c := p) (by omega) (by omega)
    omega

/-- `lsb` of `(odd)·2^v - 2^t` for `t < v` is `2^t`. -/
theorem lsb_sub_pow {a v t : Nat} (htv : t < v) :
    lsb ((2 * a + 1) * 2 ^ v - 2 ^ t) = 2 ^ t := by
  have hsplit : 2 ^ v = 2 ^ (v - t - 1) * 2 * 2 ^ t := by
    obtain ⟨e, he⟩ : ∃ e, v = e + 1 + t := ⟨v - t - 1, by omega⟩
    subst he
    have h3 : e + 1 + t - t - 1 = e := by omega
    rw [h3, pow_add, pow_add, pow_one]
  have hpos : 1 ≤ (2 * a + 1) * 2 ^ (v - t - 1) :=
    Nat.one_le_iff_ne_zero.mpr (by positivity)
  obtain ⟨k, hk⟩ := Nat.exists_eq_add_of_le hpos
  have hval : (2 * a + 1) * 2 ^ v - 2 ^ t = (2 * k + 1) * 2 ^ t := by
    have hX : (2 * a + 1) * 2 ^ v = (1 + k) * 2 * 2 ^ t := by
      rw [hsplit, ← hk]
      ring
    have hB : (1 + k) * 2 * 2 ^ t = (2 * k + 1) * 2 ^ t + 2 ^ t := by ring
    omega
  rw [hval, lsb_odd_mul_pow]

/-- The children of slot `p` (positions that fold into `p` during the build)
are exactly `p - 2^t` for `t` below the exponent of `lsb p`, and their
segments tile `(p - lsb p, p - 1]`. -/
theorem children_sum (xs : List Int) {p : Nat} (hp : 0 < p) :
    ∑ c in (Finset.Ico 1 p).filter (fun c => c + lsb c = p),
        spad xs (c + 1 - lsb c) (c + 1)
      = spad xs (p + 1 - lsb p) p := by
  obtain ⟨a, v, hpd, hpl⟩ := lsb_eq_pow (show p ≠ 0 by omega)
  have hvp : 2 ^ v ≤ p := by
    rw [hpd]
    exact Nat.le_mul_of_pos_left _ (by omega)
  have hset : (Finset.Ico 1 p).filter (fun c => c + lsb c = p) =
      (Finset.range v).image (fun t => p - 2 ^ t) := by
    ext c
    simp only [Finset.mem_filter, Finset.mem_Ico, Finset.mem_image,
      Finset.mem_range]
    constructor
    · rintro ⟨⟨hc1, hc2⟩, hc3⟩
      obtain ⟨b, u, hcd, hcl⟩ := lsb_eq_pow (show c ≠ 0 by omega)
      have hdvd : 2 ^ (u + 1) ∣ p := by
        refine ⟨b + 1, ?_⟩
        rw [← hc3, hcl, hcd, pow_succ]
        ring
      have hle := pow_le_lsb_of_dvd (show p ≠ 0 by omega) hdvd
      rw [hpl] at hle
      have huv : u + 1 ≤ v :=
        (Nat.pow_le_pow_iff_right (by norm_num : 1 < 2)).mp hle
      refine ⟨u, by omega, ?_⟩
      rw [← hc3, hcl]
      omega
    · rintro ⟨t, htv, hct⟩
      have h2t : 0 < 2 ^ t := by positivity
      have h2v : 2 ^ t < 2 ^ v := Nat.pow_lt_pow_right (by norm_num) htv
      have hlc : lsb c = 2 ^ t := by
        rw [← hct, hpd]
        exact lsb_sub_pow htv
      refine ⟨⟨?_, by omega⟩, ?_⟩
      · rw [← hct]
        omega
      · rw [hlc, ← hct]
        omega
  rw [hset]
  rw [Finset.sum_image (by
    intro s hs t ht hst
    rw [Finset.mem_range] at hs ht
    have hsp : 2 ^ s ≤ 2 ^ v := Nat.pow_le_pow_right (by norm_num) (by omega)
    have htp : 2 ^ t ≤ 2 ^ v := Nat.pow_le_pow_right (by norm_num) (by omega)
    have h2 : 2 ^ s = 2 ^ t := by omega
    exact Nat.pow_right_injective (by norm_num) h2)]
  have hterm : ∀ t ∈ Finset.range v,
      spad xs (p - 2 ^ t + 1 - lsb (p - 2 ^ t)) (p - 2 ^ t + 1) =
        spad xs (p + 1 - 2 ^ (t + 1)) (p + 1 - 2 ^ t) := by
    intro t ht
    rw [Finset.mem_range] at ht
    have h2t : 0 < 2 ^ t := by positivity
    have h2v : 2 ^ t < 2 ^ v := Nat.pow_lt_pow_right (by norm_num) ht
    have hlc : lsb (p - 2 ^ t) = 2 ^ t := by
      rw [hpd]
      exact lsb_sub_pow ht
    rw [hlc]
    congr 1
    · have h21 : 2 ^ (t + 1) = 2 ^ t * 2 := by rw [pow_succ]
      omega
    · omega
  rw [Finset.sum_congr rfl hterm, telescope_sum xs v hvp, hpl]

theorem from_vec_spec (v : List Int) :
    ∃ fw, Fenwick.from_vec v = some fw ∧ fw.size = adjSize v.length ∧
      fw.data.length = fw.size ∧
      SlotInv fw.data (vecResize v (adjSize v.length)) := by
  have hle : v.length ≤ adjSize v.length := le_of_lt (adjSize_gt _)
  have hlen : (vecResize v (adjSize v.length)).length = adjSize v.length :=
    vecResize_length hle
  obtain ⟨data', hbl, hlen', hstab, hmain⟩ :=
    buildLoop_spec hlen (show (0 : Nat) < 1 by norm_num)
  refine ⟨⟨data', adjSize v.length⟩, ?_, rfl, hlen', ?_, ?_, ?_⟩
  · show Option.map (fun d => Fenwick.mk d (adjSize v.length))
        (buildLoop (vecResize v (adjSize v.length)) 1 (adjSize v.length)) =
      some (Fenwick.mk data' (adjSize v.length))
    rw [hbl]
    rfl
  · rw [hlen', hlen]
  · exact hstab 0 (by omega)
  · intro p hp hplen
    rw [hlen'] at hplen
    induction p using Nat.strong_induction_on with
    | _ p ih =>
      rw [hmain p (by omega) hplen]
      have hsum : ∀ c ∈ (Finset.Ico 1 p).filter (fun c => c + lsb c = p),
          data'.getD c 0 = spad (vecResize v (adjSize v.length)) (c + 1 - lsb c) (c + 1) := by
        intro c hc
        rw [Finset.mem_filter, Finset.mem_Ico] at hc
        exact ih c (by omega) (by omega) (by omega)
      rw [Finset.sum_congr rfl hsum, children_sum _ hp]
      have hple : lsb p ≤ p := lsb_le
      have hppos : 0 < lsb p := lsb_pos (by omega)
      have hsingle := spad_single (vecResize v (adjSize v.length)) p
      have hcons := spad_consec (x := vecResize v (adjSize v.length))
        (a := p + 1 - lsb p) (b := p) (c := p + 1) (by omega) (by omega)
      omega

theorem from_slice_eq_from_vec (v : List Int) :
    Fenwick.from_slice v = Fenwick.from_vec v := rfl

/-! ## rank_query -/

theorem pfx_mono {xs : List Int} (hnn : ∀ q, q < xs.length → 0 ≤ xs.getD q 0)
    {a b : Nat} (h : a ≤ b) : pfx xs a ≤ pfx xs b :=
  spad_mono hnn (by omega)

theorem lsb_pow (t : Nat) : lsb (2 ^ t) = 2 ^ t := by
  have := lsb_odd_mul_pow 0 t
  simpa using this

/-- Prefix sums split at a slot boundary: slot `i` holds
`pfx i - pfx (i - lsb i)`. -/
theorem slot_pfx {data xs : List Int} (hinv : SlotInv data xs) {i : Nat}
    (h0 : 0 < i) (hi : i < data.length) :
    data.getD i 0 = pfx xs i - pfx xs (i - lsb i) := by
  have hle : lsb i ≤ i := lsb_le
  have hpos := lsb_pos (show i ≠ 0 by omega)
  rw [hinv.2.2 i h0 hi]
  have he : i + 1 - lsb i = (i - lsb i) + 1 := by omega
  rw [he]
  have hcons := spad_consec (x := xs) (a := 0) (b := i - lsb i + 1)
    (c := i + 1) (by omega) (by omega)
  unfold pfx
  omega

theorem rqLoop_spec {data xs : List Int} (hinv : SlotInv data xs) {size : Nat}
    (hlen : data.length = size)
    (hnn : ∀ q, q < xs.length → 0 ≤ xs.getD q 0) {value : Int} :
    ∀ t : Nat, ∀ i : Nat, ∀ v : Int, i % 2 ^ (t + 1) = 0 → i < size →
      v = value - pfx xs i →
      (∀ q, q < size → i + 2 ^ (t + 1) ≤ q → value < pfx xs q) →
      (0 < i → pfx xs i ≤ value) →
      ∃ r, rqLoop data size i v (2 ^ t) = some r ∧ i ≤ r ∧ r < size ∧
        (0 < r → pfx xs r ≤ value) ∧
        (∀ q, q < size → r < q → value < pfx xs q) := by
  intro t
  induction t with
  | zero =>
    intro i v halign hi hv hup hlow
    rw [rqLoop, if_pos (by norm_num)]
    by_cases hij : i + 2 ^ 0 < size
    · rw [if_pos hij]
      split
      next heq =>
        rw [get?_of_lt (show i + 2 ^ 0 < data.length by omega)] at heq
        exact absurd heq (by simp)
      next d heq =>
        obtain ⟨hdlt, hd⟩ := get?_inv heq
        have hl1 : lsb (i + 2 ^ 0) = 2 ^ 0 := by
          rw [lsb_add_multiple (Nat.dvd_of_mod_eq_zero halign) (by positivity)
            (Nat.pow_lt_pow_right (by norm_num) (by omega)), lsb_pow]
        have hslot := slot_pfx hinv (show 0 < i + 2 ^ 0 by positivity)
          (show i + 2 ^ 0 < data.length by omega)
        rw [hl1] at hslot
        have hsub : i + 2 ^ 0 - 2 ^ 0 = i := by omega
        rw [hsub] at hslot
        rw [hd] at hslot
        by_cases hdv : d ≤ v
        · rw [if_pos hdv, show (2 : Nat) ^ 0 / 2 = 0 by norm_num]
          rw [rqLoop, if_neg (by omega)]
          refine ⟨i + 2 ^ 0, rfl, by omega, hij, ?_, ?_⟩
          · intro _
            omega
          · intro q hq hgt
            have h2 : (2 : Nat) ^ (0 + 1) = 2 := by norm_num
            refine hup q hq ?_
            rw [h2]
            have h20 : (2 : Nat) ^ 0 = 1 := by norm_num
            rw [h20] at hgt
            omega
        · rw [if_neg hdv, show (2 : Nat) ^ 0 / 2 = 0 by norm_num]
          rw [rqLoop, if_neg (by omega)]
          refine ⟨i, rfl, le_refl i, hi, hlow, ?_⟩
          intro q hq hgt
          have hmono := pfx_mono hnn (show i + 2 ^ 0 ≤ q by omega)
          omega
    · rw [if_neg hij, show (2 : Nat) ^ 0 / 2 = 0 by norm_num]
      rw [rqLoop, if_neg (by omega)]
      refine ⟨i, rfl, le_refl i, hi, hlow, ?_⟩
      intro q hq hgt
      have h20 : (2 : Nat) ^ 0 = 1 := by norm_num
      omega
  | succ t ih =>
    intro i v halign hi hv hup hlow
    rw [rqLoop, if_pos (by positivity)]
    have hhalf : 2 ^ (t + 1) / 2 = 2 ^ t := by
      rw [pow_succ]
      omega
    have hdvd1 : 2 ^ (t + 1) ∣ i :=
      dvd_trans (pow_dvd_pow 2 (show t + 1 ≤ t + 1 + 1 by omega))
        (Nat.dvd_of_mod_eq_zero halign)
    have h2s : (2 : Nat) ^ (t + 2) = 2 ^ (t + 1) * 2 := by rw [pow_succ]
    have h2s1 : (2 : Nat) ^ (t + 1) = 2 ^ t * 2 := by rw [pow_succ]
    have h2pos : (0 : Nat) < 2 ^ t := by positivity
    by_cases hij : i + 2 ^ (t + 1) < size
    · rw [if_pos hij]
      split
      next heq =>
        rw [get?_of_lt (show i + 2 ^ (t + 1) < data.length by omega)] at heq
        exact absurd heq (by simp)
      next d heq =>
        obtain ⟨hdlt, hd⟩ := get?_inv heq
        have hl1 : lsb (i + 2 ^ (t + 1)) = 2 ^ (t + 1) := by
          rw [lsb_add_multiple (Nat.dvd_of_mod_eq_zero halign) (by positivity)
            (Nat.pow_lt_pow_right (by norm_num) (by omega)), lsb_pow]
        have hslot := slot_pfx hinv (show 0 < i + 2 ^ (t + 1) by positivity)
          (show i + 2 ^ (t + 1) < data.length by omega)
        rw [hl1] at hslot
        have hsub : i + 2 ^ (t + 1) - 2 ^ (t + 1) = i := by omega
        rw [hsub] at hslot
        rw [hd] at hslot
        by_cases hdv : d ≤ v
        · rw [if_pos hdv, hhalf]
          have halign1 : (i + 2 ^ (t + 1)) % 2 ^ (t + 1) = 0 :=
            Nat.dvd_iff_mod_eq_zero.mp (dvd_add hdvd1 dvd_rfl)
          obtain ⟨r, hr, hir, hrs, hrle, hrgt⟩ :=
            ih (i + 2 ^ (t + 1)) (v - d) halign1 hij (by omega)
              (by
                intro q hq hgt
                refine hup q hq ?_
                omega)
              (by
                intro _
                omega)
          exact ⟨r, hr, by omega, hrs, hrle, hrgt⟩
        · rw [if_neg hdv, hhalf]
          refine ih i v (Nat.dvd_iff_mod_eq_zero.mp hdvd1) hi hv ?_ hlow
          intro q hq hgt
          have hmono := pfx_mono hnn (show i + 2 ^ (t + 1) ≤ q by omega)
          omega
    · rw [if_neg hij, hhalf]
      refine ih i v (Nat.dvd_iff_mod_eq_zero.mp hdvd1) hi hv ?_ hlow
      intro q hq hgt
      omega

/-- Full characterisation of `rank_query` for accumulators with non-negative
elements: when the first element does not exceed `value`, the result is the
greatest valid index whose prefix sum is at most `value`; otherwise the
result is `0`. -/
theorem rank_query_spec {fw : Fenwick} {xs : List Int} (hinv : SlotInv fw.data xs)
    {k : Nat} (hsz : fw.size = 2 ^ k + 1) (hlen : fw.data.length = fw.size)
    (hnn : ∀ q, q < xs.length → 0 ≤ xs.getD q 0) (value : Int) :
    ∃ r, fw.rank_query value = some r ∧ r ≤ fw.endIdx ∧
      (pfx xs 0 ≤ value → pfx xs r ≤ value ∧
        ∀ q, q ≤ fw.endIdx → pfx xs q ≤ value → q ≤ r) ∧
      (value < pfx xs 0 → r = 0) := by
  unfold Fenwick.rank_query
  have h0 : 0 < fw.data.length := by
    rw [hlen, hsz]
    positivity
  rw [get?_of_lt h0]
  have hd0 : fw.data.getD 0 0 = pfx xs 0 := by
    rw [hinv.2.1]
    unfold pfx
    rw [spad_single]
  have hsub : fw.size - 1 = 2 ^ k := by omega
  show ∃ r, rqLoop fw.data fw.size 0 (value - fw.data.getD 0 0) (fw.size - 1)
      = some r ∧ _
  rw [hsub, hd0]
  obtain ⟨r, hr, hir, hrs, hrle, hrgt⟩ :=
    rqLoop_spec hinv hlen hnn k 0 (value - pfx xs 0) (Nat.zero_mod _)
      (by omega) rfl
      (by
        intro q hq hgt
        exfalso
        have h2 : (2 : Nat) ^ (k + 1) = 2 ^ k * 2 := by rw [pow_succ]
        have h3 : 0 < 2 ^ k := by positivity
        omega)
      (fun h => absurd h (lt_irrefl 0))
  refine ⟨r, hr, by
    show r ≤ fw.size - 1
    omega, ?_, ?_⟩
  · intro hfirst
    refine ⟨?_, ?_⟩
    · by_cases hr0 : 0 < r
      · exact hrle hr0
      · have : r = 0 := by omega
        rw [this]
        exact hfirst
    · intro q hq hple
      by_contra hc
      push_neg at hc
      have := hrgt q (by
        show q < fw.size
        have h3 : q ≤ fw.size - 1 := hq
        rw [hsz] at h3 ⊢
        omega) hc
      omega
  · intro hlt
    by_contra hc
    have hr0 : 0 < r := by omega
    have h1 := hrle hr0
    have h2 := pfx_mono hnn (show 0 ≤ r by omega)
    omega

/-! ## min_rank_query -/

theorem mrqLoop_spec {data xs : List Int} (hinv : SlotInv data xs) {k size : Nat}
    (hsz : size = 2 ^ k + 1) (hlen : data.length = size)
    (hnn : ∀ q, q < xs.length → 0 ≤ xs.getD q 0) {value : Int}
    (htot : value ≤ pfx xs (2 ^ k)) :
    ∀ n, ∀ i : Nat, ∀ v d : Int, lsb i = n → 1 ≤ i → i ≤ 2 ^ k →
      data.getD i 0 = d →
      v = value - pfx xs (i - lsb i) →
      0 < v →
      value ≤ pfx xs (i + lsb i) →
      ∃ i' v' d', mrqLoop data i v d = some (i', v', d') ∧
        i' % 2 = 1 ∧ 1 ≤ i' ∧ i' ≤ 2 ^ k ∧
        v' = value - pfx xs (i' - 1) ∧
        0 < v' ∧ value ≤ pfx xs (i' + 1) ∧
        d' = pfx xs i' - pfx xs (i' - 1) := by
  intro n
  induction n using Nat.strong_induction_on with
  | _ n ih =>
    intro i v d hn h1 hk hd hv hvpos hup
    rw [mrqLoop]
    by_cases hodd : i % 2 = 0
    case neg =>
      rw [if_neg hodd]
      have hli : lsb i = 1 := lsb_of_odd (by omega)
      rw [hli] at hv hup
      refine ⟨i, v, d, rfl, by omega, h1, hk, hv, hvpos, hup, ?_⟩
      rw [← hd]
      have hs := slot_pfx hinv (show 0 < i by omega) (show i < data.length by omega)
      rw [hli] at hs
      exact hs
    case pos =>
      rw [if_pos hodd, dif_neg (show ¬ i = 0 by omega)]
      obtain ⟨hla, hls, hldouble, hlle, hne⟩ :=
        lsb_half_add (show i ≠ 0 by omega) hodd
      have hLpos : 0 < lsb (i / 2) := lsb_pos hne
      have hlsb_le : lsb i ≤ i := lsb_le
      have hlpos : 0 < lsb i := lsb_pos (show i ≠ 0 by omega)
      have hslot : d = pfx xs i - pfx xs (i - lsb i) := by
        rw [← hd]
        exact slot_pfx hinv (by omega) (by omega)
      have hposle := pfx_mono hnn (show i - lsb i ≤ i by omega)
      by_cases hdv : d < v
      case pos =>
        rw [if_pos hdv]
        have hik : i < 2 ^ k := by
          rcases Nat.lt_or_ge i (2 ^ k) with h | h
          · exact h
          · exfalso
            have hlt : pfx xs i < value := by omega
            have hieq : i = 2 ^ k := by omega
            rw [hieq] at hlt
            omega
        have hdvd_k : lsb i ∣ 2 ^ k := by
          obtain ⟨m, t, hid, hil⟩ := lsb_eq_pow (show i ≠ 0 by omega)
          rw [hil]
          refine pow_dvd_pow 2 ?_
          have h2 : (2 : Nat) ^ t ≤ 2 ^ k := by
            rw [← hil]
            omega
          exact (Nat.pow_le_pow_iff_right (by norm_num)).mp h2
        have hstep : i + lsb i ≤ 2 ^ k := by
          obtain ⟨ci, hci⟩ := lsb_dvd i
          obtain ⟨ck, hck⟩ := hdvd_k
          have hcc : ci < ck := by
            by_contra hc
            push_neg at hc
            have := Nat.mul_le_mul_left (lsb i) hc
            omega
          have h2 := Nat.mul_le_mul_left (lsb i) (show ci + 1 ≤ ck by omega)
          have he : lsb i * (ci + 1) = lsb i * ci + lsb i := by ring
          omega
        split
        next heq =>
          rw [get?_of_lt (show i + lsb (i / 2) < data.length by omega)] at heq
          exact absurd heq (by simp)
        next d1 heq =>
          obtain ⟨_, hd1⟩ := get?_inv heq
          have hsub1 : i + lsb (i / 2) - lsb (i + lsb (i / 2)) = i := by
            rw [hla]
            omega
          have hadd1 : i + lsb (i / 2) + lsb (i + lsb (i / 2)) = i + lsb i := by
            rw [hla]
            omega
          obtain ⟨i', v', d', hm, hres⟩ :=
            ih (lsb (i + lsb (i / 2))) (by rw [hla]; omega)
              (i + lsb (i / 2)) (v - d) d1 rfl (by omega) (by omega) hd1
              (by rw [hsub1]; omega)
              (by omega)
              (by rw [hadd1]; exact hup)
          exact ⟨i', v', d', hm, hres⟩
      case neg =>
        rw [if_neg hdv]
        split
        next heq =>
          rw [get?_of_lt (show i - lsb (i / 2) < data.length by omega)] at heq
          exact absurd heq (by simp)
        next d1 heq =>
          obtain ⟨_, hd1⟩ := get?_inv heq
          have hsub1 : i - lsb (i / 2) - lsb (i - lsb (i / 2)) = i - lsb i := by
            rw [hls]
            omega
          have hadd1 : i - lsb (i / 2) + lsb (i - lsb (i / 2)) = i := by
            rw [hls]
            omega
          obtain ⟨i', v', d', hm, hres⟩ :=
            ih (lsb (i - lsb (i / 2))) (by rw [hls]; omega)
              (i - lsb (i / 2)) v d1 rfl (by omega) (by omega) hd1
              (by rw [hsub1]; exact hv)
              hvpos
              (by rw [hadd1]; omega)
          exact ⟨i', v', d', hm, hres⟩

/-- Characterisation of `min_rank_query` when `value` does not exceed the
total: the result is the least index whose prefix sum reaches `value`. -/
theorem min_rank_query_spec {fw : Fenwick} {xs : List Int}
    (hinv : SlotInv fw.data xs) {k : Nat} (hsz : fw.size = 2 ^ k + 1)
    (hlen : fw.data.length = fw.size)
    (hnn : ∀ q, q < xs.length → 0 ≤ xs.getD q 0) {value : Int}
    (htot : value ≤ pfx xs fw.endIdx) :
    ∃ r, fw.min_rank_query value = some r ∧ r ≤ fw.endIdx ∧
      value ≤ pfx xs r ∧ ∀ q, q < r → pfx xs q < value := by
  have hend : fw.endIdx = 2 ^ k := by
    unfold Fenwick.endIdx
    rw [hsz]
    exact Nat.add_sub_cancel _ _
  have h2kpos : (0 : Nat) < 2 ^ k := by positivity
  have h0len : 0 < fw.data.length := by
    rw [hlen, hsz]
    positivity
  have hklen : 2 ^ k < fw.data.length := by
    rw [hlen, hsz]
    omega
  have htot' : value ≤ pfx xs (2 ^ k) := by rw [← hend]; exact htot
  unfold Fenwick.min_rank_query
  split
  next heq =>
    rw [get?_of_lt h0len] at heq
    exact absurd heq (by simp)
  next d0 heq =>
    obtain ⟨_, hd0⟩ := get?_inv heq
    have hpfx0 : d0 = pfx xs 0 := by
      rw [← hd0, hinv.2.1]
      unfold pfx
      rw [spad_single]
    by_cases hv0 : value ≤ d0
    · rw [if_pos hv0]
      refine ⟨0, rfl, by omega, ?_, fun q hq => absurd hq (by omega)⟩
      omega
    · rw [if_neg hv0]
      split
      next heq2 =>
        rw [get?_of_lt (show fw.endIdx < fw.data.length by omega)] at heq2
        exact absurd heq2 (by simp)
      next dr heq2 =>
        obtain ⟨hdrlt, hdr⟩ := get?_inv heq2
        have hlsbend : lsb fw.endIdx = 2 ^ k := by
          rw [hend, lsb_pow]
        have hslotr : dr = pfx xs fw.endIdx - pfx xs 0 := by
          rw [← hdr]
          have hs := slot_pfx hinv (show 0 < fw.endIdx by omega) (by omega)
          rw [hlsbend, hend] at hs
          rw [show (2 : Nat) ^ k - 2 ^ k = 0 by omega] at hs
          rw [hend]
          exact hs
        have hmin : min (value - d0) dr = value - d0 := by
          rw [min_eq_left]
          omega
        rw [hmin]
        obtain ⟨i', v', d', hm, hodd', h1', hk', hv', hvpos', hup', hd'⟩ :=
          mrqLoop_spec hinv hsz hlen hnn htot' (lsb fw.endIdx) fw.endIdx
            (value - d0) dr rfl (by omega) (by omega) hdr
            (by rw [hlsbend, hend, show (2 : Nat) ^ k - 2 ^ k = 0 by omega, hpfx0])
            (by omega)
            (by
              rw [hlsbend, hend]
              have := pfx_mono hnn (show (2 : Nat) ^ k ≤ 2 ^ k + 2 ^ k by omega)
              omega)
        rw [hm]
        have hq' := pfx_mono hnn (show i' - 1 ≤ i' by omega)
        by_cases hc : v' > d'
        · have hra : (if v' > d' then i' + 1 else i') = i' + 1 := if_pos hc
          refine ⟨i' + 1, congrArg some hra, ?_, ?_, ?_⟩
          · have hlt : pfx xs i' < value := by omega
            have hne : i' ≠ 2 ^ k := by
              intro he
              rw [he] at hlt
              omega
            omega
          · exact hup'
          · intro q hq
            have := pfx_mono hnn (show q ≤ i' by omega)
            by_cases hqi : q = i'
            · subst hqi
              omega
            · have := pfx_mono hnn (show q ≤ i' - 1 by omega)
              omega
        · have hra : (if v' > d' then i' + 1 else i') = i' := if_neg hc
          refine ⟨i', congrArg some hra, by omega, by omega, ?_⟩
          intro q hq
          have := pfx_mono hnn (show q ≤ i' - 1 by omega)
          omega

/-! ## Totality of the operations under the index precondition -/

theorem rsDownAdd_isSome {data : List Int} {l : Nat} :
    ∀ j, j < data.length → ∀ s : Int, (rsDownAdd data s l j).isSome := by
  intro j
  induction j using Nat.strong_induction_on with
  | _ j ih =>
    intro hj s
    rw [rsDownAdd]
    by_cases h : j > l
    · rw [dif_pos h]
      split
      next heq =>
        rw [get?_of_lt hj] at heq
        exact absurd heq (by simp)
      next d heq =>
        exact ih (j - lsb j) (sub_lsb_lt (by omega)) (by omega) (s + d)
    · rw [dif_neg h]
      simp

theorem rsDownSub_isSome {data : List Int} {l : Nat} :
    ∀ i, i < data.length → ∀ s : Int, (rsDownSub data s l i).isSome := by
  intro i
  induction i using Nat.strong_induction_on with
  | _ i ih =>
    intro hi s
    rw [rsDownSub]
    by_cases h : i > l
    · rw [dif_pos h]
      split
      next heq =>
        rw [get?_of_lt hi] at heq
        exact absurd heq (by simp)
      next d heq =>
        exact ih (i - lsb i) (sub_lsb_lt (by omega)) (by omega) (s - d)
    · rw [dif_neg h]
      simp

theorem range_sum_isSome {fw : Fenwick} {a b : Nat} (hab : a ≤ b)
    (hb : b < fw.data.length) : (fw.range_sum a b).isSome := by
  unfold Fenwick.range_sum
  split
  next heq =>
    exfalso
    by_cases ha : a > 0
    · rw [if_pos ha] at heq
      exact Option.noConfusion heq
    · rw [if_neg ha, get?_of_lt (show 0 < fw.data.length by omega)] at heq
      exact Option.noConfusion heq
  next sum i j heq =>
    have hij : i < fw.data.length ∧ j = b := by
      by_cases ha : a > 0
      · rw [if_pos ha] at heq
        simp only [Option.some.injEq, Prod.mk.injEq] at heq
        obtain ⟨_, h2, h3⟩ := heq
        omega
      · rw [if_neg ha, get?_of_lt (show 0 < fw.data.length by omega)] at heq
        simp only [Option.some.injEq, Prod.mk.injEq] at heq
        obtain ⟨_, h2, h3⟩ := heq
        omega
    obtain ⟨hi, hj⟩ := hij
    subst hj
    have h1 := rsDownAdd_isSome (l := i) j hb sum
    obtain ⟨⟨s1, j1⟩, hs1⟩ := Option.isSome_iff_exists.mp h1
    rw [hs1]
    show (rsDownSub fw.data s1 j1 i).isSome
    exact rsDownSub_isSome i hi s1

theorem get_isSome {fw : Fenwick} {idx : Nat} (hidx : idx < fw.data.length) :
    (fw.get idx).isSome := by
  unfold Fenwick.get
  by_cases h0 : idx = 0
  · rw [if_pos h0, get?_of_lt (by omega)]
    simp
  · rw [if_neg h0]
    exact range_sum_isSome (le_refl idx) hidx

theorem add_isSome {fw : Fenwick} (hlen : fw.data.length = fw.size) {idx : Nat}
    (hidx : idx < fw.size) (δ : Int) : (fw.add idx δ).isSome := by
  unfold Fenwick.add
  by_cases h0 : idx = 0
  · rw [if_pos h0, get?_of_lt (by omega)]
    simp
  · rw [if_neg h0]
    obtain ⟨data', hloop, _, _⟩ := addLoop_spec hlen (show 0 < idx by omega) δ
    rw [hloop]
    simp

theorem sub_isSome {fw : Fenwick} (hlen : fw.data.length = fw.size) {idx : Nat}
    (hidx : idx < fw.size) (δ : Int) : (fw.sub idx δ).isSome := by
  rw [sub_eq_add_neg_fenwick]
  exact add_isSome hlen hidx (-δ)

theorem set_isSome {fw : Fenwick} (hlen : fw.data.length = fw.size) {idx : Nat}
    (hidx : idx < fw.size) (value : Int) : (fw.set idx value).isSome := by
  unfold Fenwick.set
  obtain ⟨cur, hcur⟩ := Option.isSome_iff_exists.mp (get_isSome (show idx < fw.data.length by omega))
  rw [hcur]
  show (if cur ≤ value then fw.add idx (value - cur) else fw.sub idx (cur - value)).isSome
  by_cases hc : cur ≤ value
  · rw [if_pos hc]
    exact add_isSome hlen hidx _
  · rw [if_neg hc]
    exact sub_isSome hlen hidx _

theorem total_isSome {fw : Fenwick} (hlen : fw.data.length = fw.size)
    (hpos : 0 < fw.size) : (fw.total).isSome := by
  unfold Fenwick.total
  rw [get?_of_lt (show fw.endIdx < fw.data.length by
    show fw.size - 1 < fw.data.length
    omega), get?_of_lt (show 0 < fw.data.length by omega)]
  simp

/-! ## Iterators -/

theorem iter_next_spec {fw : Fenwick} {xs : List Int} (hinv : SlotInv fw.data xs)
    (hlen : fw.data.length = fw.size) (j : Nat) :
    (j < fw.endIdx →
      (FenwickIter.mk fw j).next = some (some (xs.getD j 0), FenwickIter.mk fw (j + 1))) ∧
    (fw.endIdx ≤ j → (FenwickIter.mk fw j).next = some (none, FenwickIter.mk fw j)) := by
  constructor
  · intro hj
    unfold FenwickIter.next
    dsimp only
    rw [if_pos hj]
    have hjlen : j < fw.data.length := by
      have : fw.endIdx = fw.size - 1 := rfl
      omega
    have hg : fw.get (j + 1 - 1) = some (xs.getD j 0) := by
      rw [show j + 1 - 1 = j from rfl]
      exact get_spec hinv hjlen
    rw [hg]
  · intro hj
    unfold FenwickIter.next
    dsimp only
    rw [if_neg (by omega)]

theorem into_iter_next_spec {fw : Fenwick} {xs : List Int} (hinv : SlotInv fw.data xs)
    (hlen : fw.data.length = fw.size) (j : Nat) :
    (j < fw.endIdx →
      (FenwickIntoIter.mk fw j).next =
        some (some (xs.getD j 0), FenwickIntoIter.mk fw (j + 1))) ∧
    (fw.endIdx ≤ j → (FenwickIntoIter.mk fw j).next = some (none, FenwickIntoIter.mk fw j)) := by
  constructor
  · intro hj
    unfold FenwickIntoIter.next
    dsimp only
    rw [if_pos hj]
    have hjlen : j < fw.data.length := by
      have : fw.endIdx = fw.size - 1 := rfl
      omega
    have hg : fw.get (j + 1 - 1) = some (xs.getD j 0) := by
      rw [show j + 1 - 1 = j from rfl]
      exact get_spec hinv hjlen
    rw [hg]
  · intro hj
    unfold FenwickIntoIter.next
    dsimp only
    rw [if_neg (by omega)]

/-! ## The spec's size-8 scenario -/

/-- The spec's running example: `new(8)` then `add` of `1,1,3,1,1` at
indices `0..4`. -/
def scenFw : Option Fenwick :=
  (((((Fenwick.new 8).add 0 1).bind fun f => f.add 1 1).bind
      fun f => f.add 2 3).bind fun f => f.add 3 1).bind fun f => f.add 4 1

/-- The same accumulator after `add(7, 3)`. -/
def scenFw2 : Option Fenwick := scenFw.bind fun f => f.add 7 3

theorem new_eight_eval : Fenwick.new 8 = ⟨[0, 0, 0, 0, 0, 0, 0, 0, 0], 9⟩ := by
  have h : adjSize 8 = 9 := by
    unfold adjSize
    rw [show Nat.clog 2 8 = 3 by simp [Nat.clog]]
    norm_num
  unfold Fenwick.new
  rw [h]
  rfl

theorem scen_add0 : (Fenwick.mk [0, 0, 0, 0, 0, 0, 0, 0, 0] 9).add 0 1
    = some ⟨[1, 0, 0, 0, 0, 0, 0, 0, 0], 9⟩ := by
  simp [Fenwick.add, addLoop, lsb]

theorem scen_add1 : (Fenwick.mk [1, 0, 0, 0, 0, 0, 0, 0, 0] 9).add 1 1
    = some ⟨[1, 1, 1, 0, 1, 0, 0, 0, 1], 9⟩ := by
  simp [Fenwick.add, addLoop, lsb]

theorem scen_add2 : (Fenwick.mk [1, 1, 1, 0, 1, 0, 0, 0, 1] 9).add 2 3
    = some ⟨[1, 1, 4, 0, 4, 0, 0, 0, 4], 9⟩ := by
  simp [Fenwick.add, addLoop, lsb]

theorem scen_add3 : (Fenwick.mk [1, 1, 4, 0, 4, 0, 0, 0, 4] 9).add 3 1
    = some ⟨[1, 1, 4, 1, 5, 0, 0, 0, 5], 9⟩ := by
  simp [Fenwick.add, addLoop, lsb]

theorem scen_add4 : (Fenwick.mk [1, 1, 4, 1, 5, 0, 0, 0, 5] 9).add 4 1
    = some ⟨[1, 1, 4, 1, 6, 0, 0, 0, 6], 9⟩ := by
  simp [Fenwick.add, addLoop, lsb]

theorem scenFw_eval : scenFw = some ⟨[1, 1, 4, 1, 6, 0, 0, 0, 6], 9⟩ := by
  rw [scenFw, new_eight_eval, scen_add0]
  show (((((Fenwick.mk [1, 0, 0, 0, 0, 0, 0, 0, 0] 9).add 1 1).bind
      fun f => f.add 2 3).bind fun f => f.add 3 1).bind fun f => f.add 4 1) = _
  rw [scen_add1]
  show ((((Fenwick.mk [1, 1, 1, 0, 1, 0, 0, 0, 1] 9).add 2 3).bind
      fun f => f.add 3 1).bind fun f => f.add 4 1) = _
  rw [scen_add2]
  show (((Fenwick.mk [1, 1, 4, 0, 4, 0, 0, 0, 4] 9).add 3 1).bind
      fun f => f.add 4 1) = _
  rw [scen_add3]
  show ((Fenwick.mk [1, 1, 4, 1, 5, 0, 0, 0, 5] 9).add 4 1) = _
  rw [scen_add4]

theorem scenFw2_eval : scenFw2 = some ⟨[1, 1, 4, 1, 6, 0, 0, 3, 9], 9⟩ := by
  rw [scenFw2, scenFw_eval]
  show (Fenwick.mk [1, 1, 4, 1, 6, 0, 0, 0, 6] 9).add 7 3 = _
  simp [Fenwick.add, addLoop, lsb]

/-! ## Small concrete helpers -/

theorem lsb_one : lsb 1 = 1 := by simp [lsb]

theorem lsb_two : lsb 2 = 2 := by simp [lsb]

theorem lsb_three : lsb 3 = 1 := by simp [lsb]

theorem lsb_four : lsb 4 = 4 := by simp [lsb]

theorem lsb_five : lsb 5 = 1 := by simp [lsb]

theorem lsb_six : lsb 6 = 2 := by simp [lsb]

theorem lsb_seven : lsb 7 = 1 := by simp [lsb]

theorem lsb_eight : lsb 8 = 8 := by simp [lsb]

/-- The slot invariant for the scenario accumulator, checked concretely. -/
theorem scenSlotInv : SlotInv [1, 1, 4, 1, 6, 0, 0, 0, 6] [1, 1, 3, 1, 1, 0, 0, 0, 0] := by
  refine ⟨rfl, rfl, ?_⟩
  intro p hp hplen
  simp only [List.length_cons, List.length_nil] at hplen
  interval_cases p
  · rw [lsb_one]; decide
  · rw [lsb_two]; decide
  · rw [lsb_three]; decide
  · rw [lsb_four]; decide
  · rw [lsb_five]; decide
  · rw [lsb_six]; decide
  · rw [lsb_seven]; decide
  · rw [lsb_eight]; decide

theorem spad_congr {xs ys : List Int} {a b : Nat}
    (h : ∀ q, a ≤ q → q < b → xs.getD q 0 = ys.getD q 0) :
    spad xs a b = spad ys a b := by
  unfold spad
  refine Finset.sum_congr rfl fun q hq => ?_
  rw [Finset.mem_Ico] at hq
  exact h q hq.1 hq.2

/-! ## Claims -/

/-- **C4** (counterexample): `new(5)` does not produce exactly 5 logical
elements: `end()` is `8`, not `5 - 1 = 4`, because the constructor pads the
size to one plus a power of two. -/
theorem fenwick_c4_cex :
    (Fenwick.new 5).endIdx = 8 ∧ (Fenwick.new 5).size = 9 ∧ (8 : Nat) ≠ 5 - 1 := by
  refine ⟨?_, ?_, by decide⟩ <;>
    simp [Fenwick.new, adjSize, Nat.clog, Fenwick.endIdx]

/-- **C4** (amended): `new(size)` allocates `2 ^ ceil(log2 size) + 1` slots,
so the valid logical indices are `0 .. 2 ^ ceil(log2 size)` — a padded
range containing the requested one — and every element reads as zero. -/
theorem fenwick_c4 (n : Nat) :
    (Fenwick.new n).size = 2 ^ Nat.clog 2 n + 1 ∧
    (Fenwick.new n).data.length = (Fenwick.new n).size ∧
    (Fenwick.new n).endIdx = 2 ^ Nat.clog 2 n ∧
    n < (Fenwick.new n).size ∧
    (∀ idx, idx ≤ (Fenwick.new n).endIdx → (Fenwick.new n).get idx = some 0) := by
  have hlen : (Fenwick.new n).data.length = adjSize n := by
    show (List.replicate (adjSize n) (0 : Int)).length = adjSize n
    simp
  have hsz : (Fenwick.new n).size = adjSize n := rfl
  have h2 : 2 ≤ adjSize n := adjSize_ge_two n
  refine ⟨rfl, by rw [hlen, hsz], rfl, ?_, ?_⟩
  · rw [hsz]
    exact adjSize_gt n
  · intro idx hidx
    have hi : idx < (Fenwick.new n).data.length := by
      rw [hlen]
      have : (Fenwick.new n).endIdx = adjSize n - 1 := rfl
      omega
    rw [get_spec (new_inv n) hi, getD_replicate]

theorem fenwick_c4_witness : (Fenwick.new 5).get 3 = some 0 :=
  (fenwick_c4 5).2.2.2.2 3 (by simp [Fenwick.new, adjSize, Nat.clog, Fenwick.endIdx])

/-- **C5** (counterexample): in the accumulator built from `[0, 5]` the
logical elements are `[0, 5, 0]`, and slot `1` holds `5` — the element at
index `1` — whereas the claim says slot `p` aggregates indices
`p - lsb p .. p - 1`, which for `p = 1` would be element `0`, i.e. `0`. -/
theorem fenwick_c5_cex :
    (Fenwick.from_vec [0, 5]).map (fun fw => fw.data.getD 1 0) = some 5 ∧
    (Fenwick.from_vec [0, 5]).bind (fun fw => fw.get 1) = some 5 ∧
    specSlotClaim [0, 5, 0] 1 = 0 ∧ (5 : Int) ≠ 0 := by
  have hev : Fenwick.from_vec [0, 5] = some ⟨[0, 5, 5], 3⟩ := by
    have h3 : adjSize 2 = 3 := by
      unfold adjSize
      rw [show Nat.clog 2 2 = 1 by simp [Nat.clog]]
      norm_num
    unfold Fenwick.from_vec
    simp only [List.length_cons, List.length_nil, Nat.zero_add, h3]
    rw [show vecResize [0, 5] 3 = [0, 5, 0] by decide]
    simp [buildLoop, lsb]
  refine ⟨?_, ?_, ?_, by decide⟩
  · rw [hev]
    rfl
  · rw [hev]
    show (Fenwick.mk [0, 5, 5] 3).get 1 = some 5
    simp [Fenwick.get, Fenwick.range_sum, rsDownAdd, rsDownSub, lsb]
  · rw [specSlotClaim, lsb_one]
    decide

/-- **C5** (amended): the invariant that actually holds after construction
and after every mutating operation is: `data[0]` stores logical element `0`
directly, and slot `p ≥ 1` stores the sum of logical elements
`p - lsb p + 1 ..= p` (so element `i ≥ 1` is aggregated starting at slot
`i`, not `i + 1`). -/
theorem fenwick_c5 :
    (∀ n, SlotInv (Fenwick.new n).data (List.replicate (adjSize n) 0)) ∧
    (∀ v fw, Fenwick.from_vec v = some fw →
      SlotInv fw.data (vecResize v (adjSize v.length))) ∧
    (∀ v fw, Fenwick.from_slice v = some fw →
      SlotInv fw.data (vecResize v (adjSize v.length))) ∧
    (∀ (fw : Fenwick) (xs : List Int) (idx : Nat) (δ : Int) (fw' : Fenwick),
      SlotInv fw.data xs → fw.data.length = fw.size →
      idx < fw.size → fw.add idx δ = some fw' →
      SlotInv fw'.data (xs.set idx (xs.getD idx 0 + δ))) ∧
    (∀ (fw : Fenwick) (xs : List Int) (idx : Nat) (δ : Int) (fw' : Fenwick),
      SlotInv fw.data xs → fw.data.length = fw.size →
      idx < fw.size → fw.sub idx δ = some fw' →
      SlotInv fw'.data (xs.set idx (xs.getD idx 0 - δ))) ∧
    (∀ (fw : Fenwick) (xs : List Int) (idx : Nat) (w : Int) (fw' : Fenwick),
      SlotInv fw.data xs → fw.data.length = fw.size →
      idx < fw.size → fw.set idx w = some fw' →
      SlotInv fw'.data (xs.set idx w)) := by
  refine ⟨fun n => new_inv n, ?_, ?_, ?_, ?_, ?_⟩
  · intro v fw hv
    obtain ⟨fw', hv', _, _, hinv⟩ := from_vec_spec v
    rw [hv'] at hv
    obtain rfl := Option.some.inj hv
    exact hinv
  · intro v fw hv
    rw [from_slice_eq_from_vec] at hv
    obtain ⟨fw', hv', _, _, hinv⟩ := from_vec_spec v
    rw [hv'] at hv
    obtain rfl := Option.some.inj hv
    exact hinv
  · intro fw xs idx δ fw' hinv hlen hidx hadd
    obtain ⟨fw'', hadd', _, _, hinv'⟩ := add_spec hinv hlen hidx δ
    rw [hadd'] at hadd
    obtain rfl := Option.some.inj hadd
    exact hinv'
  · intro fw xs idx δ fw' hinv hlen hidx hsub
    obtain ⟨fw'', hsub', _, _, hinv'⟩ := sub_spec hinv hlen hidx δ
    rw [hsub'] at hsub
    obtain rfl := Option.some.inj hsub
    exact hinv'
  · intro fw xs idx w fw' hinv hlen hidx hset
    obtain ⟨fw'', hset', _, _, hinv'⟩ := set_spec hinv hlen hidx w
    rw [hset'] at hset
    obtain rfl := Option.some.inj hset
    exact hinv'

theorem fenwick_c5_witness :
    SlotInv (Fenwick.new 8).data (List.replicate (adjSize 8) 0) :=
  fenwick_c5.1 8

/-- **C6** (confirmed): `range_sum(a, b)` agrees with the difference of
prefix sums, and `prefix_sum(idx) = range_sum(0, idx)`, even though it is
computed by the two-cursor convergent walk. -/
theorem fenwick_c6 (fw : Fenwick) (xs : List Int) (hinv : SlotInv fw.data xs)
    (hlen : fw.data.length = fw.size) (hpos : 0 < fw.size)
    (a b : Nat) (hab : a ≤ b) (hb : b ≤ fw.endIdx) :
    (0 < a → ∃ r pb pa, fw.range_sum a b = some r ∧ fw.prefix_sum b = some pb ∧
      fw.prefix_sum (a - 1) = some pa ∧ r = pb - pa) ∧
    (a = 0 → fw.range_sum a b = fw.prefix_sum b) ∧
    (∀ idx, idx ≤ fw.endIdx → fw.prefix_sum idx = fw.range_sum 0 idx) := by
  have hend : fw.endIdx = fw.size - 1 := rfl
  have hblen : b < fw.data.length := by omega
  refine ⟨?_, ?_, ?_⟩
  · intro ha
    refine ⟨_, _, _, range_sum_spec hinv hab hblen, prefix_sum_spec hinv hblen,
      prefix_sum_spec hinv (by omega), ?_⟩
    unfold pfx
    have hcons := spad_consec (x := xs) (a := 0) (b := a) (c := b + 1)
      (by omega) (by omega)
    rw [show a - 1 + 1 = a from by omega]
    omega
  · intro ha
    subst ha
    rw [range_sum_spec hinv hab hblen, prefix_sum_spec hinv hblen]
    rfl
  · intro idx hidx
    rw [prefix_sum_spec hinv (by omega),
      range_sum_spec hinv (Nat.zero_le idx) (by omega)]
    rfl

theorem fenwick_c6_witness :
    (0 < 2 → ∃ r pb pa,
      (Fenwick.mk [1, 1, 4, 1, 6, 0, 0, 0, 6] 9).range_sum 2 4 = some r ∧
      (Fenwick.mk [1, 1, 4, 1, 6, 0, 0, 0, 6] 9).prefix_sum 4 = some pb ∧
      (Fenwick.mk [1, 1, 4, 1, 6, 0, 0, 0, 6] 9).prefix_sum (2 - 1) = some pa ∧
      r = pb - pa) ∧
    (2 = 0 → (Fenwick.mk [1, 1, 4, 1, 6, 0, 0, 0, 6] 9).range_sum 2 4 =
      (Fenwick.mk [1, 1, 4, 1, 6, 0, 0, 0, 6] 9).prefix_sum 4) ∧
    (∀ idx, idx ≤ (Fenwick.mk [1, 1, 4, 1, 6, 0, 0, 0, 6] 9).endIdx →
      (Fenwick.mk [1, 1, 4, 1, 6, 0, 0, 0, 6] 9).prefix_sum idx =
      (Fenwick.mk [1, 1, 4, 1, 6, 0, 0, 0, 6] 9).range_sum 0 idx) :=
  fenwick_c6 (Fenwick.mk [1, 1, 4, 1, 6, 0, 0, 0, 6] 9)
    [1, 1, 3, 1, 1, 0, 0, 0, 0] scenSlotInv rfl (by decide) 2 4 (by decide) (by decide)

/-- **C7** (confirmed): building from a sequence `S` (by the consuming or
the borrowing entry point, which coincide) puts `S[i]` at logical index `i`
and makes `prefix_sum(i)` the running sum of `S[0..=i]`. -/
theorem fenwick_c7 (S : List Int) (hnn : ∀ q, q < S.length → 0 ≤ S.getD q 0) :
    Fenwick.from_slice S = Fenwick.from_vec S ∧
    ∃ fw, Fenwick.from_vec S = some fw ∧
      (∀ i, i < S.length → fw.get i = some (S.getD i 0)) ∧
      (∀ i, i < S.length → fw.prefix_sum i = some (spad S 0 (i + 1))) := by
  obtain ⟨fw, hv, hsz, hlen, hinv⟩ := from_vec_spec S
  have hgt := adjSize_gt S.length
  have hle : S.length ≤ adjSize S.length := by omega
  refine ⟨from_slice_eq_from_vec S, fw, hv, ?_, ?_⟩
  · intro i hi
    have hil : i < fw.data.length := by omega
    rw [get_spec hinv hil, vecResize_getD hle]
  · intro i hi
    rw [prefix_sum_spec hinv (by omega)]
    congr 1
    unfold pfx
    exact spad_congr fun q _ _ => vecResize_getD hle

theorem fenwick_c7_witness :
    Fenwick.from_slice [1, 1, 3, 1, 1, 0, 0, 0] = Fenwick.from_vec [1, 1, 3, 1, 1, 0, 0, 0] ∧
    ∃ fw, Fenwick.from_vec [1, 1, 3, 1, 1, 0, 0, 0] = some fw ∧
      (∀ i, i < List.length [(1 : Int), 1, 3, 1, 1, 0, 0, 0] →
        fw.get i = some (List.getD [1, 1, 3, 1, 1, 0, 0, 0] i 0)) ∧
      (∀ i, i < List.length [(1 : Int), 1, 3, 1, 1, 0, 0, 0] →
        fw.prefix_sum i = some (spad [1, 1, 3, 1, 1, 0, 0, 0] 0 (i + 1))) :=
  fenwick_c7 [1, 1, 3, 1, 1, 0, 0, 0] (by decide)

/-- **C8** (confirmed): `add(idx, d)` raises `get(idx)` by exactly `d` and
`sub(idx, d)` lowers it by exactly `d`. -/
theorem fenwick_c8 (fw : Fenwick) (xs : List Int) (hinv : SlotInv fw.data xs)
    (hlen : fw.data.length = fw.size) (idx : Nat) (hidx : idx ≤ fw.endIdx)
    (hpos : 0 < fw.size) (δ : Int) :
    ∃ v fwa va fws vs,
      fw.get idx = some v ∧
      fw.add idx δ = some fwa ∧ fwa.get idx = some va ∧ va = v + δ ∧
      fw.sub idx δ = some fws ∧ fws.get idx = some vs ∧ vs = v - δ := by
  have hend : fw.endIdx = fw.size - 1 := rfl
  have hidx' : idx < fw.size := by omega
  have hixlen : idx < fw.data.length := by omega
  have hxlen : xs.length = fw.size := by
    rw [← hinv.1, hlen]
  obtain ⟨fwa, ha, hsa, hla, hinva⟩ := add_spec hinv hlen hidx' δ
  obtain ⟨fws, hs, hss, hls, hinvs⟩ := sub_spec hinv hlen hidx' δ
  refine ⟨xs.getD idx 0, fwa, (xs.set idx (xs.getD idx 0 + δ)).getD idx 0,
    fws, (xs.set idx (xs.getD idx 0 - δ)).getD idx 0,
    get_spec hinv hixlen, ha, get_spec hinva (by omega), ?_,
    hs, get_spec hinvs (by omega), ?_⟩
  · rw [getD_set, if_pos ⟨rfl, by omega⟩]
  · rw [getD_set, if_pos ⟨rfl, by omega⟩]

theorem fenwick_c8_witness :
    ∃ v fwa va fws vs,
      (Fenwick.mk [1, 1, 4, 1, 6, 0, 0, 0, 6] 9).get 3 = some v ∧
      (Fenwick.mk [1, 1, 4, 1, 6, 0, 0, 0, 6] 9).add 3 5 = some fwa ∧
      fwa.get 3 = some va ∧ va = v + 5 ∧
      (Fenwick.mk [1, 1, 4, 1, 6, 0, 0, 0, 6] 9).sub 3 5 = some fws ∧
      fws.get 3 = some vs ∧ vs = v - 5 :=
  fenwick_c8 (Fenwick.mk [1, 1, 4, 1, 6, 0, 0, 0, 6] 9)
    [1, 1, 3, 1, 1, 0, 0, 0, 0] scenSlotInv rfl 3 (by decide) (by decide) 5

/-- **C9** (confirmed): `range_sum2(i, j)` is the half-open range sum over
`[i, j)`: the zero value when `i = j` and `range_sum(i, j - 1)` otherwise. -/
theorem fenwick_c9 (fw : Fenwick) (xs : List Int) (hinv : SlotInv fw.data xs)
    (hlen : fw.data.length = fw.size) (hpos : 0 < fw.size)
    (a b : Nat) (hab : a ≤ b) (hb : b ≤ fw.endIdx) :
    fw.range_sum2 a b = some (spad xs a b) ∧
    (a = b → fw.range_sum2 a b = some 0) ∧
    (a < b → fw.range_sum2 a b = fw.range_sum a (b - 1)) := by
  have hend : fw.endIdx = fw.size - 1 := rfl
  unfold Fenwick.range_sum2
  by_cases he : a = b
  · subst he
    rw [if_pos rfl]
    exact ⟨by rw [spad_empty (le_refl a)], fun _ => rfl, fun h => absurd h (lt_irrefl a)⟩
  · rw [if_neg he]
    have hb1 : b - 1 < fw.data.length := by omega
    rw [range_sum_spec hinv (by omega) hb1]
    refine ⟨?_, fun h => absurd h he, fun _ => rfl⟩
    rw [show b - 1 + 1 = b from by omega]

theorem fenwick_c9_witness :
    (Fenwick.mk [1, 1, 4, 1, 6, 0, 0, 0, 6] 9).range_sum2 1 3 =
      some (spad [1, 1, 3, 1, 1, 0, 0, 0, 0] 1 3) ∧
    ((1 : Nat) = 3 → (Fenwick.mk [1, 1, 4, 1, 6, 0, 0, 0, 6] 9).range_sum2 1 3 = some 0) ∧
    ((1 : Nat) < 3 → (Fenwick.mk [1, 1, 4, 1, 6, 0, 0, 0, 6] 9).range_sum2 1 3 =
      (Fenwick.mk [1, 1, 4, 1, 6, 0, 0, 0, 6] 9).range_sum 1 (3 - 1)) :=
  fenwick_c9 (Fenwick.mk [1, 1, 4, 1, 6, 0, 0, 0, 6] 9)
    [1, 1, 3, 1, 1, 0, 0, 0, 0] scenSlotInv rfl (by decide) 1 3 (by decide) (by decide)

/-- **C10** (confirmed): every constructor allocates at least two slots and
keeps `data.length = size`; under the index precondition `idx ≤ end()` all
embedded operations are total (`isSome`), i.e. the out-of-bounds access
branch (`none`) is unreachable. -/
theorem fenwick_c10 :
    (∀ n, (Fenwick.new n).data.length = (Fenwick.new n).size ∧
      2 ≤ (Fenwick.new n).data.length) ∧
    (∀ v fw, Fenwick.from_vec v = some fw →
      fw.data.length = fw.size ∧ 2 ≤ fw.data.length) ∧
    (∀ v fw, Fenwick.from_slice v = some fw →
      fw.data.length = fw.size ∧ 2 ≤ fw.data.length) ∧
    (∀ (fw : Fenwick), fw.data.length = fw.size → 0 < fw.size →
      ∀ idx, idx ≤ fw.endIdx →
        (fw.prefix_sum idx).isSome ∧ (fw.get idx).isSome ∧
        (∀ δ : Int, (fw.add idx δ).isSome ∧ (fw.sub idx δ).isSome ∧
          (fw.set idx δ).isSome)) ∧
    (∀ (fw : Fenwick), fw.data.length = fw.size → 0 < fw.size →
      ∀ a b, a ≤ b → b ≤ fw.endIdx → (fw.range_sum a b).isSome) := by
  refine ⟨?_, ?_, ?_, ?_, ?_⟩
  · intro n
    have h1 : (Fenwick.new n).data.length = adjSize n := by
      show (List.replicate (adjSize n) (0 : Int)).length = _
      simp
    have h2 := adjSize_ge_two n
    exact ⟨by rw [h1]; rfl, by omega⟩
  · intro v fw hv
    obtain ⟨fw', hv', hsz, hlen, _⟩ := from_vec_spec v
    rw [hv'] at hv
    obtain rfl := Option.some.inj hv
    have h2 := adjSize_ge_two v.length
    exact ⟨hlen, by omega⟩
  · intro v fw hv
    rw [from_slice_eq_from_vec] at hv
    obtain ⟨fw', hv', hsz, hlen, _⟩ := from_vec_spec v
    rw [hv'] at hv
    obtain rfl := Option.some.inj hv
    have h2 := adjSize_ge_two v.length
    exact ⟨hlen, by omega⟩
  · intro fw hlen hpos idx hidx
    have hend : fw.endIdx = fw.size - 1 := rfl
    have hixlen : idx < fw.data.length := by omega
    exact ⟨prefix_sum_isSome hixlen, get_isSome hixlen,
      fun δ => ⟨add_isSome hlen (by omega) δ, sub_isSome hlen (by omega) δ,
        set_isSome hlen (by omega) δ⟩⟩
  · intro fw hlen hpos a b hab hb
    have hend : fw.endIdx = fw.size - 1 := rfl
    exact range_sum_isSome hab (by omega)

/-- Draining a borrowing iterator started at `j` with enough fuel yields
exactly the logical values from `j` up to `end() - 1`. -/
theorem iterCollect_spec {fw : Fenwick} {xs : List Int} (hinv : SlotInv fw.data xs)
    (hlen : fw.data.length = fw.size) (j m : Nat) (hm : fw.endIdx ≤ j + m) :
    iterCollect (FenwickIter.mk fw j) m =
      some ((List.range (fw.endIdx - j)).map fun t => xs.getD (j + t) 0) := by
  induction m generalizing j with
  | zero =>
    have h0 : fw.endIdx - j = 0 := by omega
    rw [h0]
    simp [iterCollect]
  | succ m ih =>
    by_cases hj : j < fw.endIdx
    · have hnext := (iter_next_spec hinv hlen j).1 hj
      have hih := ih (j + 1) (by omega)
      unfold iterCollect
      rw [hnext]
      show (match iterCollect (FenwickIter.mk fw (j + 1)) m with
        | none => none
        | some rest => some (xs.getD j 0 :: rest)) = _
      rw [hih]
      show some (xs.getD j 0 :: (List.range (fw.endIdx - (j + 1))).map
        fun t => xs.getD (j + 1 + t) 0) = _
      rw [show fw.endIdx - j = fw.endIdx - (j + 1) + 1 from by omega,
        List.range_succ_eq_map, List.map_cons, List.map_map]
      refine congrArg some (congrArg₂ List.cons (by simp) ?_)
      refine List.map_congr_left fun a _ => ?_
      simp only [Function.comp_apply]
      rw [show j + (a + 1) = j + 1 + a from by omega]
    · have hnext := (iter_next_spec hinv hlen j).2 (by omega)
      have h0 : fw.endIdx - j = 0 := by omega
      rw [h0]
      unfold iterCollect
      rw [hnext]
      simp

/-- Same for the consuming iterator. -/
theorem intoIterCollect_spec {fw : Fenwick} {xs : List Int} (hinv : SlotInv fw.data xs)
    (hlen : fw.data.length = fw.size) (j m : Nat) (hm : fw.endIdx ≤ j + m) :
    intoIterCollect (FenwickIntoIter.mk fw j) m =
      some ((List.range (fw.endIdx - j)).map fun t => xs.getD (j + t) 0) := by
  induction m generalizing j with
  | zero =>
    have h0 : fw.endIdx - j = 0 := by omega
    rw [h0]
    simp [intoIterCollect]
  | succ m ih =>
    by_cases hj : j < fw.endIdx
    · have hnext := (into_iter_next_spec hinv hlen j).1 hj
      have hih := ih (j + 1) (by omega)
      unfold intoIterCollect
      rw [hnext]
      show (match intoIterCollect (FenwickIntoIter.mk fw (j + 1)) m with
        | none => none
        | some rest => some (xs.getD j 0 :: rest)) = _
      rw [hih]
      show some (xs.getD j 0 :: (List.range (fw.endIdx - (j + 1))).map
        fun t => xs.getD (j + 1 + t) 0) = _
      rw [show fw.endIdx - j = fw.endIdx - (j + 1) + 1 from by omega,
        List.range_succ_eq_map, List.map_cons, List.map_map]
      refine congrArg some (congrArg₂ List.cons (by simp) ?_)
      refine List.map_congr_left fun a _ => ?_
      simp only [Function.comp_apply]
      rw [show j + (a + 1) = j + 1 + a from by omega]
    · have hnext := (into_iter_next_spec hinv hlen j).2 (by omega)
      have h0 : fw.endIdx - j = 0 := by omega
      rw [h0]
      unfold intoIterCollect
      rw [hnext]
      simp

/-- Slot invariant for the scenario accumulator after `add(7, 3)`. -/
theorem scenSlotInv2 : SlotInv [1, 1, 4, 1, 6, 0, 0, 3, 9] [1, 1, 3, 1, 1, 0, 0, 3, 0] := by
  refine ⟨rfl, rfl, ?_⟩
  intro p hp hplen
  simp only [List.length_cons, List.length_nil] at hplen
  interval_cases p
  · rw [lsb_one]; decide
  · rw [lsb_two]; decide
  · rw [lsb_three]; decide
  · rw [lsb_four]; decide
  · rw [lsb_five]; decide
  · rw [lsb_six]; decide
  · rw [lsb_seven]; decide
  · rw [lsb_eight]; decide

/-- **C3** (counterexample): on the size-8 scenario the borrowing iterator
yields the raw per-element values `[1,1,3,1,1,0,0,0]`, not the running
prefix sums `[1,2,5,6,7,7,7,7]` the spec promises. -/
theorem fenwick_c3_cex :
    scenFw = some (Fenwick.mk [1, 1, 4, 1, 6, 0, 0, 0, 6] 9) ∧
    iterCollect (Fenwick.mk [1, 1, 4, 1, 6, 0, 0, 0, 6] 9).iter 20 =
      some [1, 1, 3, 1, 1, 0, 0, 0] ∧
    ([1, 1, 3, 1, 1, 0, 0, 0] : List Int) ≠ [1, 2, 5, 6, 7, 7, 7, 7] := by
  refine ⟨scenFw_eval, ?_, by decide⟩
  have h : iterCollect (FenwickIter.mk (Fenwick.mk [1, 1, 4, 1, 6, 0, 0, 0, 6] 9) 0) 20
      = some ((List.range ((Fenwick.mk [1, 1, 4, 1, 6, 0, 0, 0, 6] 9).endIdx - 0)).map
        fun t => List.getD [1, 1, 3, 1, 1, 0, 0, 0, 0] (0 + t) 0) :=
    iterCollect_spec scenSlotInv rfl 0 20 (by decide)
  rw [show (Fenwick.mk [1, 1, 4, 1, 6, 0, 0, 0, 6] 9).iter
      = FenwickIter.mk (Fenwick.mk [1, 1, 4, 1, 6, 0, 0, 0, 6] 9) 0 from rfl, h]
  decide

/-- **C3** (amended): both iterators yield the RAW logical value at each
index `0 ≤ i < end()` in increasing order — `end()` items, the padded count,
not `logicalSize` — then signal exhaustion; the borrowing iterator is
restartable because `iter()` always starts a fresh cursor at index 0. -/
theorem fenwick_c3 (fw : Fenwick) (xs : List Int) (hinv : SlotInv fw.data xs)
    (hlen : fw.data.length = fw.size) (m : Nat) (hm : fw.endIdx ≤ m) :
    iterCollect fw.iter m = some ((List.range fw.endIdx).map fun i => xs.getD i 0) ∧
    intoIterCollect fw.into_iter m =
      some ((List.range fw.endIdx).map fun i => xs.getD i 0) ∧
    (∀ i, i < fw.endIdx →
      (FenwickIter.mk fw i).next = some (some (xs.getD i 0), FenwickIter.mk fw (i + 1)) ∧
      (FenwickIntoIter.mk fw i).next =
        some (some (xs.getD i 0), FenwickIntoIter.mk fw (i + 1))) ∧
    (∀ i, fw.endIdx ≤ i →
      (FenwickIter.mk fw i).next = some (none, FenwickIter.mk fw i) ∧
      (FenwickIntoIter.mk fw i).next = some (none, FenwickIntoIter.mk fw i)) ∧
    fw.iter = FenwickIter.mk fw 0 := by
  have h1 := iterCollect_spec hinv hlen 0 m (by omega)
  have h2 := intoIterCollect_spec hinv hlen 0 m (by omega)
  simp only [Nat.zero_add, Nat.sub_zero] at h1 h2
  exact ⟨h1, h2,
    fun i hi => ⟨(iter_next_spec hinv hlen i).1 hi, (into_iter_next_spec hinv hlen i).1 hi⟩,
    fun i hi => ⟨(iter_next_spec hinv hlen i).2 hi, (into_iter_next_spec hinv hlen i).2 hi⟩,
    rfl⟩

theorem fenwick_c3_witness :
    iterCollect (Fenwick.mk [1, 1, 4, 1, 6, 0, 0, 0, 6] 9).iter 20 =
      some ((List.range (Fenwick.mk [1, 1, 4, 1, 6, 0, 0, 0, 6] 9).endIdx).map
        fun i => List.getD [1, 1, 3, 1, 1, 0, 0, 0, 0] i 0) ∧
    intoIterCollect (Fenwick.mk [1, 1, 4, 1, 6, 0, 0, 0, 6] 9).into_iter 20 =
      some ((List.range (Fenwick.mk [1, 1, 4, 1, 6, 0, 0, 0, 6] 9).endIdx).map
        fun i => List.getD [1, 1, 3, 1, 1, 0, 0, 0, 0] i 0) ∧
    (∀ i, i < (Fenwick.mk [1, 1, 4, 1, 6, 0, 0, 0, 6] 9).endIdx →
      (FenwickIter.mk (Fenwick.mk [1, 1, 4, 1, 6, 0, 0, 0, 6] 9) i).next =
        some (some (List.getD [1, 1, 3, 1, 1, 0, 0, 0, 0] i 0),
          FenwickIter.mk (Fenwick.mk [1, 1, 4, 1, 6, 0, 0, 0, 6] 9) (i + 1)) ∧
      (FenwickIntoIter.mk (Fenwick.mk [1, 1, 4, 1, 6, 0, 0, 0, 6] 9) i).next =
        some (some (List.getD [1, 1, 3, 1, 1, 0, 0, 0, 0] i 0),
          FenwickIntoIter.mk (Fenwick.mk [1, 1, 4, 1, 6, 0, 0, 0, 6] 9) (i + 1))) ∧
    (∀ i, (Fenwick.mk [1, 1, 4, 1, 6, 0, 0, 0, 6] 9).endIdx ≤ i →
      (FenwickIter.mk (Fenwick.mk [1, 1, 4, 1, 6, 0, 0, 0, 6] 9) i).next =
        some (none, FenwickIter.mk (Fenwick.mk [1, 1, 4, 1, 6, 0, 0, 0, 6] 9) i) ∧
      (FenwickIntoIter.mk (Fenwick.mk [1, 1, 4, 1, 6, 0, 0, 0, 6] 9) i).next =
        some (none, FenwickIntoIter.mk (Fenwick.mk [1, 1, 4, 1, 6, 0, 0, 0, 6] 9) i)) ∧
    (Fenwick.mk [1, 1, 4, 1, 6, 0, 0, 0, 6] 9).iter =
      FenwickIter.mk (Fenwick.mk [1, 1, 4, 1, 6, 0, 0, 0, 6] 9) 0 :=
  fenwick_c3 (Fenwick.mk [1, 1, 4, 1, 6, 0, 0, 0, 6] 9)
    [1, 1, 3, 1, 1, 0, 0, 0, 0] scenSlotInv rfl 20 (by decide)

/-- **C1** (counterexample): on the size-8 scenario `rank_query(7)` returns
index `8` (the greatest padded index whose prefix sum is `≤ 7`), not the
claimed `4`; and `rank_query(0)` returns index `0`, not a no-match signal
(the function always returns an index). -/
theorem fenwick_c1_cex :
    scenFw = some (Fenwick.mk [1, 1, 4, 1, 6, 0, 0, 0, 6] 9) ∧
    (Fenwick.mk [1, 1, 4, 1, 6, 0, 0, 0, 6] 9).rank_query 7 = some 8 ∧
    some (8 : Nat) ≠ some 4 ∧
    (Fenwick.mk [1, 1, 4, 1, 6, 0, 0, 0, 6] 9).rank_query 0 = some 0 := by
  refine ⟨scenFw_eval, ?_, by decide, ?_⟩ <;> simp [Fenwick.rank_query, rqLoop]

/-- **C1** (amended): the descent advances on `slot ≤ remaining` (non-strict),
and `rank_query(value)` returns the greatest index `r` in the PADDED range
`0 .. end()` with `prefix_sum(r) ≤ value`; when even the first element
exceeds `value` it still returns index `0` rather than a no-match signal. -/
theorem fenwick_c1 (fw : Fenwick) (xs : List Int) (hinv : SlotInv fw.data xs)
    (k : Nat) (hsz : fw.size = 2 ^ k + 1) (hlen : fw.data.length = fw.size)
    (hnn : ∀ q, q < xs.length → 0 ≤ xs.getD q 0) (value : Int) :
    ∃ r, fw.rank_query value = some r ∧ r ≤ fw.endIdx ∧
      (pfx xs 0 ≤ value → pfx xs r ≤ value ∧
        ∀ q, q ≤ fw.endIdx → pfx xs q ≤ value → q ≤ r) ∧
      (value < pfx xs 0 → r = 0) :=
  rank_query_spec hinv hsz hlen hnn value

theorem fenwick_c1_witness :
    ∃ r, (Fenwick.mk [1, 1, 4, 1, 6, 0, 0, 0, 6] 9).rank_query 7 = some r ∧
      r ≤ (Fenwick.mk [1, 1, 4, 1, 6, 0, 0, 0, 6] 9).endIdx ∧
      (pfx [1, 1, 3, 1, 1, 0, 0, 0, 0] 0 ≤ 7 →
        pfx [1, 1, 3, 1, 1, 0, 0, 0, 0] r ≤ 7 ∧
        ∀ q, q ≤ (Fenwick.mk [1, 1, 4, 1, 6, 0, 0, 0, 6] 9).endIdx →
          pfx [1, 1, 3, 1, 1, 0, 0, 0, 0] q ≤ 7 → q ≤ r) ∧
      ((7 : Int) < pfx [1, 1, 3, 1, 1, 0, 0, 0, 0] 0 → r = 0) :=
  fenwick_c1 (Fenwick.mk [1, 1, 4, 1, 6, 0, 0, 0, 6] 9)
    [1, 1, 3, 1, 1, 0, 0, 0, 0] scenSlotInv 3 (by decide) rfl (by decide) 7

/-- **C2** (counterexample): on the size-8 scenario (total `7`) the spec
says `min_rank_query(8)` is a no-match, but the code returns index `4`,
whose prefix sum `7` is below the requested `8`; after `add(7, 3)` it does
return index `7` as claimed. -/
theorem fenwick_c2_cex :
    scenFw = some (Fenwick.mk [1, 1, 4, 1, 6, 0, 0, 0, 6] 9) ∧
    (Fenwick.mk [1, 1, 4, 1, 6, 0, 0, 0, 6] 9).min_rank_query 8 = some 4 ∧
    pfx [1, 1, 3, 1, 1, 0, 0, 0, 0] (Fenwick.mk [1, 1, 4, 1, 6, 0, 0, 0, 6] 9).endIdx = 7 ∧
    ¬ ((8 : Int) ≤ pfx [1, 1, 3, 1, 1, 0, 0, 0, 0] 4) ∧
    scenFw2 = some (Fenwick.mk [1, 1, 4, 1, 6, 0, 0, 3, 9] 9) ∧
    (Fenwick.mk [1, 1, 4, 1, 6, 0, 0, 3, 9] 9).min_rank_query 8 = some 7 := by
  refine ⟨scenFw_eval, ?_, by decide, by decide, scenFw2_eval, ?_⟩ <;>
    simp [Fenwick.min_rank_query, mrqLoop, lsb, Fenwick.endIdx, min_def]

/-- **C2** (amended): WHEN `value` does not exceed the padded total,
`min_rank_query(value)` returns the smallest index with
`prefix_sum(idx) ≥ value`; when the total is smaller than `value` the
function still returns an in-range index (see the counterexample) instead
of a no-match signal. -/
theorem fenwick_c2 (fw : Fenwick) (xs : List Int) (hinv : SlotInv fw.data xs)
    (k : Nat) (hsz : fw.size = 2 ^ k + 1) (hlen : fw.data.length = fw.size)
    (hnn : ∀ q, q < xs.length → 0 ≤ xs.getD q 0) (value : Int)
    (htot : value ≤ pfx xs fw.endIdx) :
    ∃ r, fw.min_rank_query value = some r ∧ r ≤ fw.endIdx ∧
      value ≤ pfx xs r ∧ ∀ q, q < r → pfx xs q < value :=
  min_rank_query_spec hinv hsz hlen hnn htot

theorem fenwick_c2_witness :
    ∃ r, (Fenwick.mk [1, 1, 4, 1, 6, 0, 0, 3, 9] 9).min_rank_query 8 = some r ∧
      r ≤ (Fenwick.mk [1, 1, 4, 1, 6, 0, 0, 3, 9] 9).endIdx ∧
      (8 : Int) ≤ pfx [1, 1, 3, 1, 1, 0, 0, 3, 0] r ∧
      ∀ q, q < r → pfx [1, 1, 3, 1, 1, 0, 0, 3, 0] q < 8 :=
  fenwick_c2 (Fenwick.mk [1, 1, 4, 1, 6, 0, 0, 3, 9] 9)
    [1, 1, 3, 1, 1, 0, 0, 3, 0] scenSlotInv2 3 (by decide) rfl (by decide) 8 (by decide)
